import Mathlib

/-!
Shallow embedding of the xfl2svg core (Python) in Lean 4, with theorems
checking the natural-language specification against the code.

Source files embedded here:
  * src/xfl2svg/color_effect.py   (ColorEffect, composition, identity, id)
  * src/xfl2svg/svg_renderer.py   (loop-frame computation, mask ids,
                                   transform wrapping, filter attachment)
  * src/xfl2svg/shape/edge.py     (parse_number, edge_format_to_point_lists,
                                   point_list_to_path_format,
                                   point_lists_to_shapes)
  * src/xfl2svg/shape/style.py    (parse_stroke_style)
  * src/xfl2svg/util.py           (get_matrix)

Numbers are modelled as rationals (the Python code uses floats, but every
computation the claims touch is exact division by powers of 2, 5 and 255,
which floats represent exactly for the inputs in question, and the claims
are about exact arithmetic identities of the code).
-/

namespace Xfl2Svg

/-! ## ColorEffect (src/xfl2svg/color_effect.py) -/

/-- A 4-tuple over RGBA channels, e.g. a multiplier tuple or offset tuple. -/
structure RGBA where
  r : ℚ
  g : ℚ
  b : ℚ
  a : ℚ
deriving DecidableEq, Repr

/-- `ColorEffect` dataclass: `effect` is `None` (identity) or a
`(multiplier, offset)` pair of RGBA 4-tuples. -/
structure ColorEffect where
  effect : Option (RGBA × RGBA) := none
deriving DecidableEq, Repr

/-- The non-error core of `ColorEffect.__matmul__` (`self @ other`):
identity on either side returns the other operand unchanged; otherwise the
element-wise `(self_m * other_m, self_m * other_o + self_o)` rule. -/
def ColorEffect.compose (s o : ColorEffect) : ColorEffect :=
  match s.effect with
  | none => o
  | some (sm, so) =>
    match o.effect with
    | none => s
    | some (om, oo) =>
      ⟨some
        (⟨sm.r * om.r, sm.g * om.g, sm.b * om.b, sm.a * om.a⟩,
         ⟨sm.r * oo.r + so.r, sm.g * oo.g + so.g,
          sm.b * oo.b + so.b, sm.a * oo.a + so.a⟩)⟩

/-- A Python operand value, for modelling the dynamic type check at the top
of `ColorEffect.__matmul__` (`type(other) is not ColorEffect`). Operands
that are not `ColorEffect` instances are represented by their type name. -/
inductive PyOperand where
  | colorEffect (e : ColorEffect)
  | otherType (typeName : String)
deriving DecidableEq

/-- Python errors raised by the embedded fragments. -/
inductive PyError where
  | typeError (msg : String)
deriving DecidableEq

/-- `ColorEffect.__matmul__`: raises `TypeError` when the operand's type is
not `ColorEffect`, otherwise composes. -/
def ColorEffect.matmul (s : ColorEffect) (other : PyOperand) :
    Except PyError ColorEffect :=
  match other with
  | .otherType typeName =>
    .error (.typeError
      ("expected type ColorEffect, but operand has type " ++ typeName))
  | .colorEffect o => .ok (s.compose o)

/-- `ColorEffect.is_identity()`: true for the absent (`None`) case or the
explicit all-ones multiplier / all-zeros offset case. -/
def ColorEffect.isIdentity (s : ColorEffect) : Bool :=
  s.effect = none ∨ s.effect = some (⟨1, 1, 1, 1⟩, ⟨0, 0, 0, 0⟩)

/-! ## Loop-frame computation (src/xfl2svg/svg_renderer.py,
`SvgRenderer._get_loop_frame`) -/

/-- Errors raised by `_get_loop_frame`. The Python code raises bare
`Exception`s with distinct messages; the spec names them `InvalidLoopError`
and `UnknownLoopModeError`. -/
inductive LoopError where
  | invalidLoop (loopLength : ℤ)
  | unknownLoopType (loopType : String)
deriving DecidableEq

/-- `SvgRenderer._get_loop_frame`, after `first_frame`, `last_frame` and the
`loop` attribute have been read off the instance. `frameOffset` is the
frame offset from the start of the current keyframe. Python's `%` with a
positive modulus agrees with `Int.emod`. -/
def getLoopFrame (firstFrame lastFrame : ℤ) (loopType : String)
    (frameOffset : ℤ) : Except LoopError ℤ :=
  if loopType = "single frame" then
    .ok firstFrame
  else if loopType = "loop" then
    let loopLength := lastFrame - firstFrame + 1
    if loopLength ≤ 0 then
      .error (.invalidLoop loopLength)
    else
      .ok (firstFrame + frameOffset % loopLength)
  else if loopType = "play once" then
    .ok (min (firstFrame + frameOffset) lastFrame)
  else
    .error (.unknownLoopType loopType)

/-! ## parse_number (src/xfl2svg/shape/edge.py) -/

/-- Big-endian value of a list of hex digits (nibbles), as in Python's
`int(s, 16)` / byte reassembly. -/
def hexVal (ds : List (Fin 16)) : ℕ :=
  ds.foldl (fun acc d => 16 * acc + d.val) 0

/-- Zero-pad a hex digit string on the left to width `n`
(Python `"{:>06}".format`). -/
def padLeftZeros (n : ℕ) (ds : List (Fin 16)) : List (Fin 16) :=
  List.replicate (n - ds.length) 0 ++ ds

/-- Zero-pad a hex digit string on the right to width `n`
(Python `"{:<02}".format`). -/
def padRightZeros (n : ℕ) (ds : List (Fin 16)) : List (Fin 16) :=
  ds ++ List.replicate (n - ds.length) 0

/-- An XFL edge-format numeric literal: either a decimal literal (carrying
its exact decimal value) or a hex literal `#H.h` (carrying the hex digits
of the integer part `H` and fractional part `h`). -/
inductive NumLiteral where
  | dec (q : ℚ)
  | hex (H h : List (Fin 16))

/-- `parse_number`: a decimal literal is divided by 20 (twips); a hex
literal `#H.h` has `H` zero-padded on the left to 6 digits and `h`
zero-padded on the right to 2 digits, the 8 hex digits are read as a
32-bit signed big-endian integer (`int.from_bytes(..., "big",
signed=True)`), and the result is divided by 256 and then by 20. The
tokenizer grammar guarantees `1 ≤ |H| ≤ 6` and `1 ≤ |h| ≤ 2`, so the
padded digit string has exactly 8 digits (4 bytes). -/
def parse_number : NumLiteral → ℚ
  | .dec q => q / 20
  | .hex H h =>
    let nib := padLeftZeros 6 H ++ padRightZeros 2 h
    let v : ℕ := hexVal nib
    let signed : ℤ := if 2 ^ 31 ≤ v then (v : ℤ) - 2 ^ 32 else (v : ℤ)
    ((signed : ℚ) / 256) / 20

/-! ## Segment Builder (src/xfl2svg/shape/edge.py,
`edge_format_to_point_lists`) -/

/-- A decoded point. Python represents points as formatted coordinate
strings `f"{x} {y}"` of the parsed floats and compares those strings;
distinct parsed values give distinct strings, so exact-value comparison
over `ℚ` models the comparison (the IEEE negative-zero artifact of a
literal `"-0"`, whose formatted string differs from `"0.0"`, is outside
this model since `parse_number` lands in `ℚ`). -/
abbrev Point := ℚ × ℚ

/-- One entry of a point list: a plain point (move/line destination, a bare
coordinate string in Python) or a quadratic Bézier control point (a
1-tuple in Python). -/
inductive Vertex where
  | plain (p : Point)
  | ctrl (p : Point)
deriving DecidableEq, Repr

/-- A token produced by `EDGE_TOKENIZER`: a moveto `"!"`, a lineto `"|"` or
`"/"`, a quadto `"["` or `"]"`, or a numeric literal. -/
inductive EdgeTok where
  | bang
  | line
  | quad
  | num (lit : NumLiteral)

/-- Errors of `edge_format_to_point_lists`: the failed
`assert next(tokens) == "!"`, a `StopIteration` escaping outside the
`try` block (empty token stream), and the `ValueError` raised by
`parse_number` when a command token appears where a number is expected. -/
inductive SegError where
  | formatAssert
  | unexpectedEnd
  | valueError
deriving DecidableEq, Repr

/-- The `while True` loop of `edge_format_to_point_lists`. Arguments mirror
the Python state: remaining tokens, `prev_point`, the in-progress
`point_list`, and the segments yielded so far (the generator's output,
collected in order). A `StopIteration` inside the `try` (tokens running
out at the command fetch or inside `next_point`) yields the in-progress
list; in the quadto case the control point has already been appended when
the destination fetch runs out. A non-numeric token where `next_point`
expects a number raises `ValueError` (the Python generator would deliver
earlier yields lazily before the exception; the claims only concern
streams that parse without error). -/
def buildSegments : List EdgeTok → Point → List Vertex → List (List Vertex) →
    Except SegError (List (List Vertex))
  | [], _, cur, acc => .ok (acc ++ [cur])
  | _ :: [], _, cur, acc => .ok (acc ++ [cur])
  | _ :: .num _ :: [], _, cur, acc => .ok (acc ++ [cur])
  | t :: .num a :: .num b :: rest, prev, cur, acc =>
    let p : Point := (parse_number a, parse_number b)
    match t with
    | .bang =>
      -- A move command that does not change the current point is ignored;
      -- otherwise yield the current point list and begin a new one.
      if p = prev then buildSegments rest prev cur acc
      else buildSegments rest p [.plain p] (acc ++ [cur])
    | .line => buildSegments rest p (cur ++ [.plain p]) acc
    | _ =>
      -- Quad to (and Python's final `else`, which any non-moveto,
      -- non-lineto command token falls into).
      match rest with
      | [] => .ok (acc ++ [cur ++ [.ctrl p]])
      | .num _ :: [] => .ok (acc ++ [cur ++ [.ctrl p]])
      | .num c :: .num d :: rest' =>
        let q : Point := (parse_number c, parse_number d)
        buildSegments rest' q (cur ++ [.ctrl p, .plain q]) acc
      | _ => .error .valueError
  | _ :: _, _, _, _ => .error .valueError

/-- `edge_format_to_point_lists`, on the token list produced by
`EDGE_TOKENIZER`: asserts the stream starts with `"!"`, reads the first
point, then runs the main loop. -/
def edge_format_to_point_lists (toks : List EdgeTok) :
    Except SegError (List (List Vertex)) :=
  match toks with
  | [] => .error .unexpectedEnd
  | .bang :: rest =>
    match rest with
    | .num a :: .num b :: rest' =>
      let p : Point := (parse_number a, parse_number b)
      buildSegments rest' p [.plain p] []
    | [] => .error .unexpectedEnd
    | .num _ :: [] => .error .unexpectedEnd
    | _ => .error .valueError
  | _ :: _ => .error .formatAssert

/-! ## point_list_to_path_format (src/xfl2svg/shape/edge.py) -/

/-- One entry of the `path` list built by `point_list_to_path_format`:
either a command letter (`"M"`, `"L"`, `"Q"`, `"Z"`) or a point (in
Python, the coordinate string for a plain point, or — only on malformed
input ending in a control point — the control 1-tuple itself). The emitted
path string is the space-join of these entries. -/
inductive PathTok where
  | cmd (c : String)
  | pt (v : Vertex)
deriving DecidableEq, Repr

/-- The `while True` loop of `point_list_to_path_format`: `last` is
`last_command`. A control point emits `"Q"` (if needed), itself, and the
immediately following element; if the list ends right after a control
point, the `StopIteration` of the destination fetch ends the loop with the
control point already appended. -/
def pathFormatLoop : List Vertex → String → List PathTok
  | [], _ => []
  | .plain p :: rest, last =>
    (if "L" = last then [] else [PathTok.cmd "L"]) ++
      PathTok.pt (.plain p) :: pathFormatLoop rest "L"
  | .ctrl c :: rest, last =>
    let pre := if "Q" = last then [] else [PathTok.cmd "Q"]
    match rest with
    | [] => pre ++ [PathTok.pt (.ctrl c)]
    | v :: rest' => pre ++ PathTok.pt (.ctrl c) :: PathTok.pt v ::
        pathFormatLoop rest' "Q"

/-- `point_list_to_path_format` (the edge.py version, which appends a
closepath `"Z"` when the first and last entries of the point list are
equal). `none` models the `StopIteration` escaping on an empty list. -/
def point_list_to_path_format (pl : List Vertex) : Option (List PathTok) :=
  match pl with
  | [] => none
  | v :: rest =>
    let body := PathTok.cmd "M" :: PathTok.pt v :: pathFormatLoop rest "M"
    some (body ++ if (v :: rest).getLast? = some v then [PathTok.cmd "Z"] else [])

/-! ## parse_stroke_style (src/xfl2svg/shape/style.py) -/

/-- The attributes of an XFL `<SolidStroke>` element that
`parse_stroke_style` reads (`None` = attribute absent). -/
structure SolidStrokeAttrib where
  scaleMode : Option String := none
  weight : Option String := none
  joints : Option String := none
  miterLimit : Option String := none
  caps : Option String := none
  solidStyle : Option String := none
deriving DecidableEq

/-- The SVG stroke attributes produced by `parse_stroke_style` for a
`<SolidStroke>` (paint attributes from the nested fill are out of scope of
the claims and omitted; `fill` is always `"none"`). -/
structure StrokeSvgAttrib where
  strokeLinecap : String
  strokeWidth : String
  strokeLinejoin : String
  strokeMiterlimit : Option String
deriving DecidableEq

/-- `parse_stroke_style` on a `<SolidStroke>`: cap defaults to `"round"`
with `"none"` mapped to `"butt"`; width defaults to `"1"`; join defaults
to `"round"`; a truthy `solidStyle` equal to `"hairline"` overrides the
width to `"0.05"` (any other truthy value only warns); when the join is
`"miter"`, `stroke-miterlimit` is set, defaulting to `"5"`. -/
def parse_stroke_style (s : SolidStrokeAttrib) : StrokeSvgAttrib :=
  let cap0 := s.caps.getD "round"
  let cap := if cap0 = "none" then "butt" else cap0
  let width0 := s.weight.getD "1"
  let joints := s.joints.getD "round"
  -- `solid = style.get("solidStyle"); if solid:` — `None` and `""` are
  -- falsy in Python, so only a non-empty value reaches the hairline test.
  let width :=
    match s.solidStyle with
    | none => width0
    | some st => if st = "" then width0
                 else if st = "hairline" then "0.05" else width0
  let miter := if joints = "miter" then some (s.miterLimit.getD "5") else none
  ⟨cap, width, joints, miter⟩

/-! ## Shape Assembler (src/xfl2svg/shape/edge.py, `point_lists_to_shapes`)

The Python function takes `[(point_list, fill_id), ...]`, files
already-closed point lists directly into the output, groups open ones into
a per-fill directed multigraph keyed by start point, and then repeatedly
pops a segment and runs the backtracking `walk` to close a ring.

Modelling notes, to be read against the source:
  * Dictionaries preserve insertion order in Python; they are modelled as
    association lists with unique keys, with new keys appended at the end
    (`defaultdict` creation order).
  * `walk` mutates `fill_graph` in place, but every `del` immediately
    precedes a successful `return`: a call that returns `None` has made no
    net change to the graph (and has restored `used_points`). The model
    therefore threads the graph state through successful returns and
    reuses the unchanged graph when a candidate branch fails.
  * Python's `s[0]` / `s[-1]` raise `IndexError` on an empty point list;
    the model uses total head/last functions with a junk default, and all
    theorems assume nonempty point lists. Reading `fill_graph[p]` for a
    missing key `p` creates an empty entry in the `defaultdict` (which can
    then make the outer `for origin in fill_graph.keys()` raise a
    `RuntimeError`); under the balance invariant assumed by the claims
    every reachable endpoint already has an entry, and the model's lookup
    simply returns `[]` without creating keys.
  * Fill ids (Python strings) are opaque keys; they are modelled as `ℕ`.
-/

/-- A segment in point-list form. -/
abbrev Seg := List Vertex

/-- Fill style identifier (an opaque string in Python). -/
abbrev FillId := ℕ

/-- A per-fill graph: `{origin point: [point list, ...], ...}` as an
insertion-ordered association list. -/
abbrev Graph := List (Vertex × List Seg)

/-- Python `point_list[0]` as a total function with a junk default on
`[]`. In Python, an empty point list raises `IndexError` here; this model
does not represent that failure, so every theorem below about the shape
assembler is scoped (by hypothesis) to inputs whose point lists are
nonempty, which is what `edge_format_to_point_lists` produces. -/
def segHeadD (s : Seg) : Vertex := s.headD (.plain (0, 0))

/-- Python `point_list[-1]` as a total function with a junk default on
`[]` (same scoping caveat as `segHeadD`). -/
def segLastD (s : Seg) : Vertex := s.getLastD (.plain (0, 0))

/-- Reading `fill_graph[k]`: the list at key `k`, `[]` if absent. This is
a pure lookup: Python's defaultdict read additionally inserts a missing
key, and that side effect can later make `for origin in
fill_graph.keys()` raise `RuntimeError` (dictionary changed size during
iteration) on unbalanced inputs. The model drops the side effect, so no
theorem below speaks about the failure behavior of the assembler on
unbalanced inputs; the success theorems are stated under a balance
hypothesis, under which the Python walk never reads a missing key (every
consulted endpoint has positive out-degree at intake and so is already a
key). -/
def graphFind : Graph → Vertex → List Seg
  | [], _ => []
  | (k', segs) :: rest, k => if k' = k then segs else graphFind rest k

/-- Write the list at key `k`, appending a new binding at the end if the
key is absent (defaultdict insertion order). -/
def graphSet : Graph → Vertex → List Seg → Graph
  | [], k, v => [(k, v)]
  | (k', segs) :: rest, k, v =>
    if k' = k then (k, v) :: rest else (k', segs) :: graphSet rest k v

/-- `fill_graph[k].append(s)`. -/
def graphAdd (g : Graph) (k : Vertex) (s : Seg) : Graph :=
  graphSet g k (graphFind g k ++ [s])

/-- `del fill_graph[k][i]`. -/
def graphDeleteAt (g : Graph) (k : Vertex) (i : ℕ) : Graph :=
  graphSet g k ((graphFind g k).eraseIdx i)

/-- All segments stored in the graph, in storage order. -/
def graphSegList (g : Graph) : List Seg := (g.map Prod.snd).flatten

/-- A segment found at a key is among the graph's segments. -/
theorem mem_graphSegList_of_mem_graphFind {g : Graph} {k : Vertex} {s : Seg}
    (hs : s ∈ graphFind g k) : s ∈ graphSegList g := by
  induction g with
  | nil => simp [graphFind] at hs
  | cons kv rest ih =>
    simp only [graphFind] at hs
    simp only [graphSegList, List.map_cons, List.flatten_cons]
    by_cases hk : kv.1 = k
    · rw [if_pos hk] at hs
      exact List.mem_append.mpr (.inl hs)
    · rw [if_neg hk] at hs
      exact List.mem_append.mpr (.inr (ih hs))

/-- The multiset of segments stored in the graph. -/
def graphSegs (g : Graph) : Multiset Seg := (graphSegList g : List Seg)

/-- All segment endpoints present in the graph. -/
def endpointsOf (g : Graph) : Finset Vertex :=
  ((graphSegList g).map segLastD).toFinset

/-- Structural invariant of the per-fill graph, established at intake and
preserved by the assembler: keys are unique; every stored segment is keyed
by its start point, has at least two entries, and is open. -/
def GraphWF (g : Graph) : Prop :=
  (g.map Prod.fst).Nodup ∧
  ∀ k segs, (k, segs) ∈ g → ∀ s ∈ segs,
    segHeadD s = k ∧ 2 ≤ s.length ∧ segLastD s ≠ segHeadD s

/-- Out-degree of a vertex: segments starting there. -/
def graphOut (g : Graph) (v : Vertex) : ℕ :=
  (graphSegList g).countP (fun s => segHeadD s = v)

/-- In-degree of a vertex: segments ending there. -/
def graphIn (g : Graph) (v : Vertex) : ℕ :=
  (graphSegList g).countP (fun s => segLastD s = v)

/-- The `walk` recursion of `point_lists_to_shapes`, with the candidate
loop index `i` made explicit (`for i in range(len(fill_graph[curr_point]))`,
where the list at `curr_point` is unchanged while the loop runs: deeper
recursive calls only delete at their own, distinct current points).
Returns the joined shape tail together with the updated graph on success,
`None` on exhaustion. -/
def walkAux (curr : Vertex) (used : Finset Vertex) (origin : Vertex)
    (g : Graph) (i : ℕ) : Option (Seg × Graph) :=
  let cands := graphFind g curr
  if h : i < cands.length then
    let nxt := cands.get ⟨i, h⟩
    let np := segLastD nxt
    if np = origin then
      -- Found a cycle. This shape is now closed.
      some (nxt, graphDeleteAt g curr i)
    else if hu : np ∈ used then
      walkAux curr used origin g (i + 1)
    else
      -- Try this point list; on failure backtrack (`used_points` is
      -- restored and the graph was not changed by the failed branch).
      match walkAux np (insert np used) origin g 0 with
      | some (tail, g') =>
        -- Concat this point list, removing the redundant start move.
        some (nxt ++ tail.drop 1, graphDeleteAt g' curr i)
      | none => walkAux curr used origin g (i + 1)
  else none
termination_by ((endpointsOf g \ used).card, (graphFind g curr).length - i)
decreasing_by
  · apply Prod.Lex.right
    have h' : i < (graphFind g curr).length := h
    omega
  · apply Prod.Lex.left
    have hmem : segLastD ((graphFind g curr).get ⟨i, h⟩) ∈ endpointsOf g := by
      simp only [endpointsOf, List.mem_toFinset, List.mem_map]
      exact ⟨_, mem_graphSegList_of_mem_graphFind (List.get_mem _ _ _), rfl⟩
    have hsub :
        endpointsOf g \ insert (segLastD ((graphFind g curr).get ⟨i, h⟩)) used
          ⊂ endpointsOf g \ used := by
      rw [Finset.sdiff_insert]
      exact Finset.erase_ssubset (Finset.mem_sdiff.mpr ⟨hmem, hu⟩)
    exact Finset.card_lt_card hsub
  · apply Prod.Lex.right
    have h' : i < (graphFind g curr).length := h
    omega

/-- `walk(curr_point, used_points, origin, fill_graph)`. -/
def walk (curr : Vertex) (used : Finset Vertex) (origin : Vertex)
    (g : Graph) : Option (Seg × Graph) :=
  walkAux curr used origin g 0

/-- Writing a bucket exchanges its old contents for the new ones in the
graph's segment multiset (whether or not the key already exists). -/
theorem graphSegs_graphSet (g : Graph) (k : Vertex) (v : List Seg) :
    graphSegs (graphSet g k v) + (graphFind g k : Multiset Seg) =
      graphSegs g + (v : Multiset Seg) := by
  have coeadd : ∀ a b : List Seg, ((a ++ b : List Seg) : Multiset Seg) =
      (a : Multiset Seg) + (b : Multiset Seg) := fun _ _ => rfl
  induction g with
  | nil => simp [graphSegs, graphSet, graphFind, graphSegList]
  | cons kv rest ih =>
    obtain ⟨k', b⟩ := kv
    by_cases hk : k' = k
    · subst hk
      simp only [graphSet, if_pos rfl, if_true, eq_self_iff_true, graphFind,
        graphSegs, graphSegList, List.map_cons, List.flatten_cons, coeadd]
      abel
    · simp only [graphSet, if_neg hk, graphFind, if_neg hk, graphSegs,
        graphSegList, List.map_cons, List.flatten_cons, coeadd] at ih ⊢
      rw [add_assoc, add_assoc, ih]

/-- Erasing a valid index exchanges exactly that element. -/
theorem coe_eraseIdx_add (l : List Seg) (i : ℕ) (h : i < l.length) :
    ((l.eraseIdx i : List Seg) : Multiset Seg) + {l.get ⟨i, h⟩} =
      (l : Multiset Seg) := by
  induction l generalizing i with
  | nil => simp at h
  | cons a t ih =>
    cases i with
    | zero =>
      simp only [List.eraseIdx, List.get]
      rw [add_comm, Multiset.singleton_add]
      rfl
    | succ j =>
      have hj : j < t.length := by simpa using h
      simp only [List.eraseIdx, List.get]
      have : ((a :: t.eraseIdx j : List Seg) : Multiset Seg) =
          a ::ₘ (t.eraseIdx j : List Seg) := rfl
      rw [this, Multiset.cons_add, ih j hj]
      rfl

theorem length_eraseIdx_le (l : List Seg) (i : ℕ) :
    (l.eraseIdx i).length ≤ l.length := by
  induction l generalizing i with
  | nil => simp [List.eraseIdx]
  | cons a t ih =>
    cases i with
    | zero => simp [List.eraseIdx]
    | succ j =>
      simp only [List.eraseIdx, List.length_cons]
      exact Nat.succ_le_succ (ih j)

/-- `del fill_graph[k][i]` at a valid index removes exactly that segment
from the graph's segment multiset. -/
theorem graphSegs_graphDeleteAt (g : Graph) (k : Vertex) (i : ℕ)
    (h : i < (graphFind g k).length) :
    graphSegs (graphDeleteAt g k i) + {(graphFind g k).get ⟨i, h⟩} =
      graphSegs g := by
  have h1 := graphSegs_graphSet g k ((graphFind g k).eraseIdx i)
  have h2 := coe_eraseIdx_add (graphFind g k) i h
  have h3 : (graphSegs (graphDeleteAt g k i) +
        {(graphFind g k).get ⟨i, h⟩}) +
        ((graphFind g k).eraseIdx i : Multiset Seg) =
      graphSegs g + ((graphFind g k).eraseIdx i : Multiset Seg) := by
    have : graphSegs (graphDeleteAt g k i) +
        (((graphFind g k).eraseIdx i : Multiset Seg) +
          {(graphFind g k).get ⟨i, h⟩}) =
        graphSegs g + ((graphFind g k).eraseIdx i : Multiset Seg) := by
      rw [h2]
      exact h1
    calc (graphSegs (graphDeleteAt g k i) + {(graphFind g k).get ⟨i, h⟩}) +
          ((graphFind g k).eraseIdx i : Multiset Seg)
        = graphSegs (graphDeleteAt g k i) +
            (((graphFind g k).eraseIdx i : Multiset Seg) +
              {(graphFind g k).get ⟨i, h⟩}) := by abel
      _ = graphSegs g + ((graphFind g k).eraseIdx i : Multiset Seg) := this
  exact add_right_cancel h3

/-- `del fill_graph[k][i]` never grows the graph. -/
theorem card_graphDeleteAt_le (g : Graph) (k : Vertex) (i : ℕ) :
    Multiset.card (graphSegs (graphDeleteAt g k i)) ≤
      Multiset.card (graphSegs g) := by
  have h1 := congrArg Multiset.card (graphSegs_graphSet g k
    ((graphFind g k).eraseIdx i))
  simp only [Multiset.card_add, Multiset.coe_card] at h1
  have h2 := length_eraseIdx_le (graphFind g k) i
  unfold graphDeleteAt
  omega

/-- `del fill_graph[k][i]` at a valid index strictly shrinks the graph. -/
theorem card_graphDeleteAt_lt (g : Graph) (k : Vertex) (i : ℕ)
    (h : i < (graphFind g k).length) :
    Multiset.card (graphSegs (graphDeleteAt g k i)) <
      Multiset.card (graphSegs g) := by
  have h1 := congrArg Multiset.card (graphSegs_graphDeleteAt g k i h)
  simp only [Multiset.card_add, Multiset.card_singleton] at h1
  omega

theorem graphFind_graphSet_self (g : Graph) (k : Vertex) (v : List Seg) :
    graphFind (graphSet g k v) k = v := by
  induction g with
  | nil => simp [graphSet, graphFind]
  | cons kv rest ih =>
    obtain ⟨k', b⟩ := kv
    by_cases hk : k' = k
    · subst hk
      simp [graphSet, graphFind]
    · simp [graphSet, graphFind, hk, ih]

theorem graphFind_graphSet_other (g : Graph) (k : Vertex) (v : List Seg)
    (k' : Vertex) (h : k' ≠ k) :
    graphFind (graphSet g k v) k' = graphFind g k' := by
  have hne : k ≠ k' := fun hh => h hh.symm
  induction g with
  | nil =>
    simp only [graphSet, graphFind]
    rw [if_neg hne]
  | cons kv rest ih =>
    obtain ⟨k0, b⟩ := kv
    by_cases hk : k0 = k
    · subst hk
      simp only [graphSet, if_pos rfl, graphFind]
      rw [if_neg hne, if_neg hne]
    · simp only [graphSet, if_neg hk, graphFind]
      by_cases hk' : k0 = k'
      · rw [if_pos hk', if_pos hk']
      · rw [if_neg hk', if_neg hk', ih]

/-- Deleting at one key leaves other keys' buckets unchanged. -/
theorem graphFind_graphDeleteAt_other (g : Graph) (k : Vertex) (i : ℕ)
    (k' : Vertex) (h : k' ≠ k) :
    graphFind (graphDeleteAt g k i) k' = graphFind g k' :=
  graphFind_graphSet_other g k _ k' h

/-- A successful `walk` strictly shrinks the graph: it deletes at least
the segment that closed the cycle. -/
theorem walkAux_card_lt :
    ∀ curr used origin g i, ∀ tail g',
      walkAux curr used origin g i = some (tail, g') →
      Multiset.card (graphSegs g') < Multiset.card (graphSegs g) := by
  intro curr used origin g i
  induction curr, used, origin, g, i using walkAux.induct with
  | case1 curr used g i cands h nxt np =>
    intro tail g' heq
    rw [walkAux] at heq
    simp only [dif_pos h, eq_self_iff_true, if_true, Option.some.injEq] at heq
    obtain ⟨-, rfl⟩ := heq
    exact card_graphDeleteAt_lt g curr i h
  | case2 curr used origin g i cands h nxt np hno hu ih =>
    intro tail g' heq
    rw [walkAux] at heq
    simp only [dif_pos h, if_neg hno, dif_pos hu] at heq
    exact ih tail g' heq
  | case3 curr used origin g i cands h nxt np hno hnu tail1 g1 hw ihInner =>
    intro tail g' heq
    rw [walkAux] at heq
    simp only [dif_pos h, if_neg hno, dif_neg hnu, hw, Option.some.injEq]
      at heq
    obtain ⟨-, rfl⟩ := heq
    calc Multiset.card (graphSegs (graphDeleteAt g1 curr i))
        ≤ Multiset.card (graphSegs g1) := card_graphDeleteAt_le g1 curr i
      _ < Multiset.card (graphSegs g) := ihInner tail1 g1 hw
  | case4 curr used origin g i cands h nxt np hno hnu hw ihInner ih =>
    intro tail g' heq
    rw [walkAux] at heq
    simp only [dif_pos h, if_neg hno, dif_neg hnu, hw] at heq
    exact ih tail g' heq
  | case5 curr used origin g i cands h =>
    intro tail g' heq
    rw [walkAux] at heq
    simp only [dif_neg h] at heq
    exact absurd heq (by simp)

/-- The `while fill_graph[origin]:` loop of `point_lists_to_shapes` for
one origin key: pop the last point list at the origin, walk from its end
point with `used_points = {origin, curr_point}`, fail with the assertion
message if the walk cannot close a ring, otherwise commit the ring
(`point_list + shape[1:]`) and continue. `acc` collects the committed
rings in order. -/
def assembleAtOrigin (origin : Vertex) (g : Graph) (acc : List Seg) :
    Except String (List Seg × Graph) :=
  match hc : graphFind g origin with
  | [] => .ok (acc, g)
  | c :: cs =>
    let pl := (c :: cs).getLast (by simp)
    let g1 := graphSet g origin (c :: cs).dropLast
    let curr := segLastD pl
    match hw : walk curr {origin, curr} origin g1 with
    | none => .error "Failed to build shape"
    | some (tail, g2) =>
      assembleAtOrigin origin g2 (acc ++ [pl ++ tail.drop 1])
termination_by Multiset.card (graphSegs g)
decreasing_by
  have hg1 : g1 = graphSet g origin (c :: cs).dropLast := rfl
  have hlt := walkAux_card_lt curr {origin, curr} origin g1 0 tail g2 hw
  have h1 := congrArg Multiset.card (graphSegs_graphSet g origin
    (c :: cs).dropLast)
  rw [← hg1] at h1
  simp only [Multiset.card_add, Multiset.coe_card, hc] at h1
  simp only [List.length_dropLast, List.length_cons] at h1
  omega

/-- The `for origin in fill_graph.keys():` loop: process each origin key
in insertion order (under the balance invariant the key set does not
change while the loop runs, so iterating the initial key list is
faithful). -/
def assembleKeys (keys : List Vertex) (g : Graph) (acc : List Seg) :
    Except String (List Seg × Graph) :=
  match keys with
  | [] => .ok (acc, g)
  | k :: ks =>
    match assembleAtOrigin k g acc with
    | .error e => .error e
    | .ok (acc', g') => assembleKeys ks g' acc'

/-- Assemble all rings of one fill's graph. -/
def assembleFill (g : Graph) : Except String (List Seg × Graph) :=
  assembleKeys (g.map Prod.fst) g []

/-- `shapes`: `{fill style ID: [shape point list, ...], ...}` as an
insertion-ordered association list. -/
abbrev ShapeMap := List (FillId × List Seg)

/-- The per-fill graphs, `{fill style ID: fill_graph, ...}`. -/
abbrev FillGraphs := List (FillId × Graph)

/-- `shapes[fill_id].append(point_list)` (defaultdict). -/
def shapesAdd : ShapeMap → FillId → Seg → ShapeMap
  | [], f, s => [(f, [s])]
  | (f', ss) :: rest, f, s =>
    if f' = f then (f', ss ++ [s]) :: rest else (f', ss) :: shapesAdd rest f s

/-- Append a list of rings to `shapes[fill_id]` (the per-fill commit of
the assembly loop). -/
def shapesAddList : ShapeMap → FillId → List Seg → ShapeMap
  | [], f, new => [(f, new)]
  | (f', ss) :: rest, f, new =>
    if f' = f then (f', ss ++ new) :: rest
    else (f', ss) :: shapesAddList rest f new

/-- `graph[fill_id][point_list[0]].append(point_list)` (nested
defaultdicts). -/
def graphsAdd : FillGraphs → FillId → Vertex → Seg → FillGraphs
  | [], f, k, s => [(f, graphAdd [] k s)]
  | (f', fg) :: rest, f, k, s =>
    if f' = f then (f', graphAdd fg k s) :: rest
    else (f', fg) :: graphsAdd rest f k s

/-- The intake loop of `point_lists_to_shapes`: already-closed point lists
go straight to `shapes`; open ones are grouped into the per-fill graphs
keyed by their start point. -/
def intake (pls : List (Seg × FillId)) : ShapeMap × FillGraphs :=
  pls.foldl
    (fun acc x =>
      if segHeadD x.1 = segLastD x.1 then (shapesAdd acc.1 x.2 x.1, acc.2)
      else (acc.1, graphsAdd acc.2 x.2 (segHeadD x.1) x.1))
    ([], [])

/-- The `for fill_id, fill_graph in graph.items():` loop: assemble each
fill's graph, appending its rings to the fill's shape list. -/
def assembleAll : ShapeMap → FillGraphs → Except String ShapeMap
  | m, [] => .ok m
  | m, (fid, g) :: rest =>
    match assembleFill g with
    | .error e => .error e
    | .ok (rings, _) => assembleAll (shapesAddList m fid rings) rest

/-- `point_lists_to_shapes(point_lists)`: join point lists and fill style
IDs into shapes. -/
def point_lists_to_shapes (pls : List (Seg × FillId)) :
    Except String ShapeMap :=
  let p := intake pls
  assembleAll p.1 p.2

/-! ### Unfolding equations for `assembleAtOrigin` (used both for
concrete evaluation and in the invariant proofs) -/

theorem assembleAtOrigin_nil (origin : Vertex) (g : Graph) (acc : List Seg)
    (h : graphFind g origin = []) :
    assembleAtOrigin origin g acc = .ok (acc, g) := by
  rw [assembleAtOrigin.eq_def]
  split
  · rfl
  · rename_i c cs hc
    rw [h] at hc
    cases hc

theorem assembleAtOrigin_cons_none (origin : Vertex) (g : Graph)
    (acc : List Seg) (c : Seg) (cs : List Seg)
    (h : graphFind g origin = c :: cs)
    (hw : walk (segLastD ((c :: cs).getLast (by simp)))
        {origin, segLastD ((c :: cs).getLast (by simp))} origin
        (graphSet g origin (c :: cs).dropLast) = none) :
    assembleAtOrigin origin g acc = .error "Failed to build shape" := by
  rw [assembleAtOrigin.eq_def]
  split
  · rename_i hc
    rw [h] at hc
    cases hc
  · rename_i c' cs' hc
    rw [h] at hc
    obtain ⟨rfl, rfl⟩ : c' = c ∧ cs' = cs := by cases hc; exact ⟨rfl, rfl⟩
    dsimp only
    split
    · rfl
    · rename_i tail g2 hw'
      rw [hw] at hw'
      cases hw'

theorem assembleAtOrigin_cons_some (origin : Vertex) (g : Graph)
    (acc : List Seg) (c : Seg) (cs : List Seg) (tail : Seg) (g2 : Graph)
    (h : graphFind g origin = c :: cs)
    (hw : walk (segLastD ((c :: cs).getLast (by simp)))
        {origin, segLastD ((c :: cs).getLast (by simp))} origin
        (graphSet g origin (c :: cs).dropLast) = some (tail, g2)) :
    assembleAtOrigin origin g acc =
      assembleAtOrigin origin g2
        (acc ++ [(c :: cs).getLast (by simp) ++ tail.drop 1]) := by
  rw [assembleAtOrigin.eq_def]
  split
  · rename_i hc
    rw [h] at hc
    cases hc
  · rename_i c' cs' hc
    rw [h] at hc
    obtain ⟨rfl, rfl⟩ : c' = c ∧ cs' = cs := by cases hc; exact ⟨rfl, rfl⟩
    dsimp only
    split
    · rename_i hw'
      rw [hw] at hw'
      cases hw'
    · rename_i tail' g2' hw'
      rw [hw] at hw'
      obtain ⟨rfl, rfl⟩ : tail' = tail ∧ g2' = g2 := by
        cases hw'; exact ⟨rfl, rfl⟩
      rfl

/-! ### Chains of joined segments

`IsChain a segs b` says the segments link end-to-start from vertex `a` to
vertex `b`; `joinElide` is the concatenation with the repeated start-point
move of interior segments elided (`point_list + shape[1:]` iterated). -/

inductive IsChain : Vertex → List Seg → Vertex → Prop where
  | single (s : Seg) : IsChain (segHeadD s) [s] (segLastD s)
  | cons (s : Seg) (rest : List Seg) (e : Vertex) :
      IsChain (segLastD s) rest e → IsChain (segHeadD s) (s :: rest) e

/-- Concatenation of joined segments, dropping each interior segment's
redundant start move. -/
def joinElide : List Seg → Seg
  | [] => []
  | s :: rest => s ++ (rest.map (List.drop 1)).flatten

theorem IsChain.ne_nil {a b : Vertex} {segs : List Seg}
    (h : IsChain a segs b) : segs ≠ [] := by
  cases h <;> simp

theorem IsChain.head_eq {a b : Vertex} {s : Seg} {rest : List Seg}
    (h : IsChain a (s :: rest) b) : segHeadD s = a := by
  cases h <;> rfl

theorem joinElide_cons (s : Seg) (rest : List Seg)
    (h : ∀ t ∈ rest, t ≠ []) :
    joinElide (s :: rest) = s ++ (joinElide rest).drop 1 := by
  cases rest with
  | nil => simp [joinElide]
  | cons t r =>
    have ht : 1 ≤ t.length := by
      have := h t (by simp)
      cases t with
      | nil => exact absurd rfl this
      | cons x xs => simp
    simp only [joinElide, List.map_cons, List.flatten_cons]
    rw [List.drop_append_of_le_length ht]

theorem sum_length_map_drop (r : List Seg) (h : ∀ t ∈ r, t ≠ []) :
    ((r.map (List.drop 1)).map List.length).sum + r.length =
      (r.map List.length).sum := by
  induction r with
  | nil => simp
  | cons t rs ih =>
    have ht : t ≠ [] := h t (by simp)
    have ht1 : 1 ≤ t.length := by
      cases t with
      | nil => exact absurd rfl ht
      | cons x xs => simp
    simp only [List.map_cons, List.sum_cons, List.length_cons,
      List.length_drop]
    have := ih (fun u hu => h u (by simp [hu]))
    omega

theorem length_joinElide (s : Seg) (rest : List Seg)
    (hne : ∀ t ∈ rest, t ≠ []) :
    (joinElide (s :: rest)).length + rest.length =
      ((s :: rest).map List.length).sum := by
  simp only [joinElide, List.length_append, List.length_flatten,
    List.map_cons, List.sum_cons]
  have := sum_length_map_drop rest hne
  omega

theorem segLastD_append (a x : Seg) (h : x ≠ []) :
    segLastD (a ++ x) = segLastD x := by
  unfold segLastD
  rw [List.getLastD_eq_getLast?, List.getLastD_eq_getLast?,
    List.getLast?_append_of_ne_nil a h]

theorem segLastD_drop_one (l : Seg) (h : 2 ≤ l.length) :
    segLastD (l.drop 1) = segLastD l := by
  obtain ⟨x, y, xs, rfl⟩ : ∃ x y xs, l = x :: y :: xs := by
    cases l with
    | nil => simp at h
    | cons x t =>
      cases t with
      | nil => simp at h
      | cons y xs => exact ⟨x, y, xs, rfl⟩
  simp [segLastD]

/-- The join of a chain of real (two-or-more-point) segments ends at the
chain's end vertex. -/
theorem segLastD_joinElide {a b : Vertex} {segs : List Seg}
    (h : IsChain a segs b) (hlen : ∀ t ∈ segs, 2 ≤ t.length) :
    segLastD (joinElide segs) = b := by
  induction h with
  | single s => simp [joinElide, segLastD]
  | cons s rest e hrest ih =>
    have hlen' : ∀ t ∈ rest, 2 ≤ t.length := fun t ht =>
      hlen t (by simp [ht])
    have hne : ∀ t ∈ rest, t ≠ [] := fun t ht => by
      have := hlen' t ht
      intro hnil
      rw [hnil] at this
      simp at this
    rw [joinElide_cons s rest hne]
    obtain ⟨t, r, rfl⟩ : ∃ t r, rest = t :: r := by
      cases rest with
      | nil => exact absurd rfl hrest.ne_nil
      | cons t r => exact ⟨t, r, rfl⟩
    have h2 : 2 ≤ (joinElide (t :: r)).length := by
      have ht2 : 2 ≤ t.length := hlen' t (by simp)
      simp only [joinElide, List.length_append]
      omega
    have hdrop : (joinElide (t :: r)).drop 1 ≠ [] := by
      intro hd
      have := congrArg List.length hd
      simp only [List.length_drop, List.length_nil] at this
      omega
    rw [segLastD_append _ _ hdrop, segLastD_drop_one _ h2, ih hlen']

/-- Head/last occurrence counts along a chain: at every vertex the number
of chain segments starting there, plus one if the vertex is the chain's
end, equals the number ending there, plus one if it is the chain's
start. -/
theorem IsChain.count_eq {a b : Vertex} {segs : List Seg}
    (h : IsChain a segs b) (v : Vertex) :
    (segs.countP (fun s => segHeadD s = v) + (if v = b then 1 else 0)) =
      (segs.countP (fun s => segLastD s = v) + (if v = a then 1 else 0)) := by
  induction h with
  | single s =>
    have hh' : (v = segHeadD s) = (segHeadD s = v) :=
      propext ⟨Eq.symm, Eq.symm⟩
    have hl' : (v = segLastD s) = (segLastD s = v) :=
      propext ⟨Eq.symm, Eq.symm⟩
    by_cases hh : segHeadD s = v <;> by_cases hl : segLastD s = v <;>
      simp only [List.countP_cons, List.countP_nil, hh', hl', hh, hl,
        eq_self_iff_true, decide_True, decide_False, if_true, if_false,
        Bool.false_eq_true]
    all_goals omega
  | cons s rest e hrest ih =>
    have hh' : (v = segHeadD s) = (segHeadD s = v) :=
      propext ⟨Eq.symm, Eq.symm⟩
    have hl' : (v = segLastD s) = (segLastD s = v) :=
      propext ⟨Eq.symm, Eq.symm⟩
    simp only [hl'] at ih
    by_cases hh : segHeadD s = v <;> by_cases hl : segLastD s = v <;>
      simp only [List.countP_cons, hh', hl', hh, hl, eq_self_iff_true,
        decide_True, decide_False, if_true, if_false, Bool.false_eq_true,
        iff_true, iff_false] at ih ⊢
    all_goals omega

/-! ### Existence of chains in balanced graphs

In a segment multiset whose in/out degrees balance except for one unit of
excess from `c` to `o`, a chain from `c` to `o` exists (the standard
Eulerian argument), and any chain can be shortened to a simple one. -/

/-- The interior link vertices of a chain (all segment end points except
the final one). -/
def chainInts (segs : List Seg) : List Vertex :=
  (segs.dropLast).map segLastD

theorem chainInts_single (s : Seg) : chainInts [s] = [] := rfl

theorem chainInts_cons (s : Seg) (t : Seg) (rest : List Seg) :
    chainInts (s :: t :: rest) = segLastD s :: chainInts (t :: rest) := rfl

/-- Eulerian step: a multiset with one unit of out-excess at `c` and
in-excess at `o` (with `c` distinct from `o`) contains a chain from `c`
to `o`. -/

theorem chain_exists :
    ∀ (n : ℕ) (M : Multiset Seg) (c o : Vertex), Multiset.card M ≤ n →
      c ≠ o →
      (∀ v, M.countP (fun s => segHeadD s = v) + (if v = o then 1 else 0) =
            M.countP (fun s => segLastD s = v) + (if v = c then 1 else 0)) →
      ∃ segs : List Seg, IsChain c segs o ∧ (segs : Multiset Seg) ≤ M := by
  intro n
  induction n with
  | zero =>
    intro M c o hcard hco hbal
    exfalso
    have h0 : M = 0 := Multiset.card_eq_zero.mp (Nat.le_zero.mp hcard)
    have hb := hbal c
    rw [h0] at hb
    rw [if_neg hco, if_pos rfl] at hb
    simp at hb
  | succ m ih =>
    intro M c o hcard hco hbal
    have hpos : 0 < M.countP (fun s => segHeadD s = c) := by
      have hb := hbal c
      rw [if_neg hco, if_pos rfl] at hb
      omega
    obtain ⟨s, hsM, hhead⟩ := Multiset.countP_pos.mp hpos
    have hMs : M = s ::ₘ M.erase s := (Multiset.cons_erase hsM).symm
    by_cases hwo : segLastD s = o
    · refine ⟨[s], ?_, ?_⟩
      · have h1 := IsChain.single s
        rw [hhead, hwo] at h1
        exact h1
      · have : ({s} : Multiset Seg) ≤ M := Multiset.singleton_le.mpr hsM
        simpa using this
    · have e1 : ∀ v : Vertex, (v = c) = (c = v) := fun v =>
        propext ⟨Eq.symm, Eq.symm⟩
      have hbal' : ∀ v,
          (M.erase s).countP (fun t => segHeadD t = v) +
            (if v = o then 1 else 0) =
          (M.erase s).countP (fun t => segLastD t = v) +
            (if v = segLastD s then 1 else 0) := by
        intro v
        have hb := hbal v
        rw [hMs, Multiset.countP_cons, Multiset.countP_cons, hhead] at hb
        have e2 : (c = v) = (v = c) := propext ⟨Eq.symm, Eq.symm⟩
        have e3 : (segLastD s = v) = (v = segLastD s) :=
          propext ⟨Eq.symm, Eq.symm⟩
        simp only [e2, e3] at hb
        omega
      have hcard' : Multiset.card (M.erase s) ≤ m := by
        have h1 := Multiset.card_erase_of_mem hsM
        have h2 : 0 < Multiset.card M := Multiset.card_pos.mpr
          (fun h0 => by rw [h0] at hsM; simp at hsM)
        rw [h1, Nat.pred_eq_sub_one]
        omega
      obtain ⟨segs', hchain', hle'⟩ :=
        ih (M.erase s) (segLastD s) o hcard' hwo hbal'
      refine ⟨s :: segs', ?_, ?_⟩
      · have h1 := IsChain.cons s segs' o hchain'
        rw [hhead] at h1
        exact h1
      · have : (s ::ₘ (segs' : Multiset Seg)) ≤ s ::ₘ M.erase s :=
          Multiset.cons_le_cons s hle'
        rw [← hMs] at this
        exact this

/-- Any chain can be shortened to a simple one: distinct interior
vertices, none equal to either endpoint. -/

theorem IsChain.suffix_from :
    ∀ {c o x : Vertex} {segs : List Seg}, IsChain c segs o →
      x ∈ chainInts segs →
      ∃ ys, IsChain x ys o ∧ (ys : Multiset Seg) ≤ (segs : Multiset Seg) ∧
        ys.length < segs.length := by
  intro c o x segs h
  induction h with
  | single s =>
    intro hx
    rw [chainInts_single] at hx
    simp at hx
  | cons s rest e hrest ih =>
    intro hx
    obtain ⟨t, r, rfl⟩ : ∃ t r, rest = t :: r := by
      cases rest with
      | nil => exact absurd rfl hrest.ne_nil
      | cons t r => exact ⟨t, r, rfl⟩
    rw [chainInts_cons] at hx
    rcases List.mem_cons.mp hx with rfl | hx'
    · refine ⟨t :: r, hrest, ?_, by simp⟩
      exact Multiset.le_cons_self _ _
    · obtain ⟨ys, hy1, hy2, hy3⟩ := ih hx'
      refine ⟨ys, hy1, le_trans hy2 (Multiset.le_cons_self _ _), ?_⟩
      have := hy3
      simp only [List.length_cons] at this ⊢
      omega

theorem exists_simple_chain :
    ∀ (n : ℕ) (segs : List Seg) (c o : Vertex), segs.length ≤ n →
      IsChain c segs o →
      ∃ segs', IsChain c segs' o ∧
        (segs' : Multiset Seg) ≤ (segs : Multiset Seg) ∧
        (chainInts segs').Nodup ∧
        ∀ v ∈ chainInts segs', v ≠ c ∧ v ≠ o := by
  intro n
  induction n with
  | zero =>
    intro segs c o hlen hch
    exfalso
    have := hch.ne_nil
    cases segs with
    | nil => exact this rfl
    | cons a t => simp at hlen
  | succ m ih =>
    intro segs c o hlen hch
    cases hch with
    | single s =>
      exact ⟨[s], IsChain.single s, le_refl _,
        by rw [chainInts_single]; exact List.nodup_nil,
        by rw [chainInts_single]; intro v hv; simp at hv⟩
    | cons s rest _ hrest =>
      by_cases hwo : segLastD s = o
      · refine ⟨[s], ?_, ?_,
          by rw [chainInts_single]; exact List.nodup_nil,
          by rw [chainInts_single]; intro v hv; simp at hv⟩
        · have h1 := IsChain.single s
          rw [hwo] at h1
          exact h1
        · have : ((([s] : List Seg)) : Multiset Seg) = {s} := rfl
          rw [this]
          exact Multiset.singleton_le.mpr (by simp)
      · have hlen' : rest.length ≤ m := by
          simp only [List.length_cons] at hlen
          omega
        obtain ⟨rest', h1, h2, h3, h4⟩ := ih rest (segLastD s) o hlen' hrest
        by_cases hwc : segLastD s = segHeadD s
        · refine ⟨rest', ?_, le_trans h2 (Multiset.le_cons_self _ _), h3,
            fun v hv => ⟨?_, (h4 v hv).2⟩⟩
          · rw [← hwc]
            exact h1
          · have := (h4 v hv).1
            rw [hwc] at this
            exact this
        · by_cases hcint : segHeadD s ∈ chainInts rest'
          · obtain ⟨ys, hy1, hy2, hy3⟩ := IsChain.suffix_from h1 hcint
            have hlrest' : rest'.length ≤ rest.length := by
              have := Multiset.card_le_card h2
              simpa using this
            have hlys : ys.length ≤ m := by omega
            obtain ⟨ys', hy1', hy2', hy3', hy4'⟩ :=
              ih ys (segHeadD s) o hlys hy1
            refine ⟨ys', hy1', ?_, hy3', hy4'⟩
            calc (ys' : Multiset Seg) ≤ (ys : Multiset Seg) := hy2'
              _ ≤ (rest' : Multiset Seg) := hy2
              _ ≤ (rest : Multiset Seg) := h2
              _ ≤ ((s :: rest : List Seg) : Multiset Seg) :=
                  Multiset.le_cons_self _ _
          · obtain ⟨t, r, rfl⟩ : ∃ t r, rest' = t :: r := by
              cases rest' with
              | nil => exact absurd rfl h1.ne_nil
              | cons t r => exact ⟨t, r, rfl⟩
            refine ⟨s :: t :: r, IsChain.cons s (t :: r) o h1, ?_, ?_, ?_⟩
            · exact Multiset.cons_le_cons s h2
            · rw [chainInts_cons]
              refine List.nodup_cons.mpr ⟨fun hmem => ?_, h3⟩
              exact (h4 _ hmem).1 rfl
            · intro v hv
              rw [chainInts_cons] at hv
              rcases List.mem_cons.mp hv with rfl | hv'
              · exact ⟨fun hvc => hwc hvc, hwo⟩
              · refine ⟨fun hvc => hcint (hvc ▸ hv'), (h4 v hv').2⟩

/-! ### Well-formedness is preserved by the graph operations -/

theorem GraphWF.tail {kv : Vertex × List Seg} {g : Graph}
    (h : GraphWF (kv :: g)) : GraphWF g :=
  ⟨(List.nodup_cons.mp h.1).2,
   fun k segs hm s hs => h.2 k segs (List.mem_cons_of_mem _ hm) s hs⟩

/-- Every segment found at key `k` of a well-formed graph starts at `k`,
has at least two points, and is open. -/
theorem graphFind_props {g : Graph} (hwf : GraphWF g) {k : Vertex} {s : Seg}
    (hs : s ∈ graphFind g k) :
    segHeadD s = k ∧ 2 ≤ s.length ∧ segLastD s ≠ segHeadD s := by
  induction g with
  | nil => simp [graphFind] at hs
  | cons kv rest ih =>
    obtain ⟨k', b⟩ := kv
    simp only [graphFind] at hs
    by_cases hk : k' = k
    · rw [if_pos hk] at hs
      subst hk
      exact hwf.2 k' b (by simp) s hs
    · rw [if_neg hk] at hs
      exact ih hwf.tail hs

theorem mem_of_mem_eraseIdx {l : List Seg} {i : ℕ} {s : Seg}
    (h : s ∈ l.eraseIdx i) : s ∈ l := by
  induction l generalizing i with
  | nil => simp [List.eraseIdx] at h
  | cons a t ih =>
    cases i with
    | zero =>
      simp only [List.eraseIdx] at h
      exact List.mem_cons_of_mem _ h
    | succ j =>
      simp only [List.eraseIdx, List.mem_cons] at h
      rcases h with rfl | h
      · simp
      · exact List.mem_cons_of_mem _ (ih h)

theorem mem_keys_graphSet {g : Graph} {k : Vertex} {v : List Seg}
    {k0 : Vertex} (h : k0 ∈ (graphSet g k v).map Prod.fst) :
    k0 ∈ g.map Prod.fst ∨ k0 = k := by
  induction g with
  | nil =>
    simp only [graphSet, List.map_cons, List.map_nil, List.mem_cons,
      List.not_mem_nil, or_false] at h
    exact Or.inr h
  | cons kv rest ih =>
    obtain ⟨k', b⟩ := kv
    by_cases hk : k' = k
    · subst hk
      simp only [graphSet, if_pos rfl, if_true, eq_self_iff_true,
        List.map_cons, List.mem_cons] at h
      rcases h with h | h
      · exact Or.inr h
      · exact Or.inl (by simp [h])
    · simp only [graphSet, if_neg hk, List.map_cons, List.mem_cons] at h
      rcases h with h | h
      · exact Or.inl (by simp [h])
      · rcases ih h with h' | h'
        · exact Or.inl (by simp [h'])
        · exact Or.inr h'

theorem nodup_keys_graphSet {g : Graph} {k : Vertex} {v : List Seg}
    (h : (g.map Prod.fst).Nodup) :
    ((graphSet g k v).map Prod.fst).Nodup := by
  induction g with
  | nil => simp [graphSet]
  | cons kv rest ih =>
    obtain ⟨k', b⟩ := kv
    simp only [List.map_cons, List.nodup_cons] at h
    by_cases hk : k' = k
    · subst hk
      simp only [graphSet, if_pos rfl, if_true, eq_self_iff_true,
        List.map_cons, List.nodup_cons]
      exact h
    · simp only [graphSet, if_neg hk, List.map_cons, List.nodup_cons]
      refine ⟨fun hmem => ?_, ih h.2⟩
      rcases mem_keys_graphSet hmem with h' | h'
      · exact h.1 h'
      · exact hk h'

theorem mem_graphSet_elim {g : Graph} {k : Vertex} {v : List Seg}
    {k0 : Vertex} {segs : List Seg}
    (h : (k0, segs) ∈ graphSet g k v) :
    (k0, segs) ∈ g ∨ (k0 = k ∧ segs = v) := by
  induction g with
  | nil =>
    simp only [graphSet, List.mem_cons, List.not_mem_nil, or_false,
      Prod.mk.injEq] at h
    exact Or.inr h
  | cons kv rest ih =>
    obtain ⟨k', b⟩ := kv
    by_cases hk : k' = k
    · subst hk
      simp only [graphSet, if_pos rfl, if_true, eq_self_iff_true,
        List.mem_cons, Prod.mk.injEq] at h
      rcases h with h | h
      · exact Or.inr h
      · exact Or.inl (List.mem_cons_of_mem _ h)
    · simp only [graphSet, if_neg hk, List.mem_cons] at h
      rcases h with h | h
      · exact Or.inl (List.mem_cons.mpr (Or.inl h))
      · rcases ih h with h' | h'
        · exact Or.inl (List.mem_cons_of_mem _ h')
        · exact Or.inr h'

theorem GraphWF_graphSet {g : Graph} {k : Vertex} {v : List Seg}
    (hwf : GraphWF g)
    (hv : ∀ s ∈ v, segHeadD s = k ∧ 2 ≤ s.length ∧ segLastD s ≠ segHeadD s) :
    GraphWF (graphSet g k v) := by
  refine ⟨nodup_keys_graphSet hwf.1, fun k0 segs hm s hs => ?_⟩
  rcases mem_graphSet_elim hm with h | ⟨rfl, rfl⟩
  · exact hwf.2 k0 segs h s hs
  · exact hv s hs

theorem GraphWF_graphDeleteAt {g : Graph} {k : Vertex} {i : ℕ}
    (hwf : GraphWF g) : GraphWF (graphDeleteAt g k i) := by
  refine GraphWF_graphSet hwf (fun s hs => ?_)
  exact graphFind_props hwf (mem_of_mem_eraseIdx hs)

/-! ### The master specification of a successful walk

A successful `walk` from `curr` preserves well-formedness, leaves every
bucket of a `used` key other than `curr` untouched, and removes from the
graph exactly a chain of segments from `curr` to `origin` whose
elided join is the returned shape tail. -/

theorem walkAux_spec :
    ∀ curr used origin g i tail g',
      walkAux curr used origin g i = some (tail, g') →
      GraphWF g → curr ∈ used →
      GraphWF g' ∧
      (∀ k ∈ used, k ≠ curr → graphFind g' k = graphFind g k) ∧
      ∃ segs, IsChain curr segs origin ∧ tail = joinElide segs ∧
        (∀ t ∈ segs, 2 ≤ t.length) ∧
        graphSegs g = graphSegs g' + (segs : Multiset Seg) := by
  intro curr used origin g i
  induction curr, used, origin, g, i using walkAux.induct with
  | case1 curr used g i cands h nxt np =>
    intro tail g' heq hwf hcu
    rw [walkAux] at heq
    simp only [dif_pos h, eq_self_iff_true, if_true, Option.some.injEq]
      at heq
    obtain ⟨rfl, rfl⟩ := heq
    have hprops := graphFind_props hwf (List.get_mem (graphFind g curr) i h)
    refine ⟨GraphWF_graphDeleteAt hwf,
      fun k _ hk => graphFind_graphDeleteAt_other g curr i k hk,
      [nxt], ?_,
      by simp only [joinElide, List.map_nil, List.flatten_nil,
           List.append_nil],
      ?_, ?_⟩
    · have h1 : IsChain (segHeadD nxt) [nxt] (segLastD nxt) :=
        IsChain.single nxt
      rw [hprops.1] at h1
      exact h1
    · intro t ht
      simp only [List.mem_singleton] at ht
      subst ht
      exact hprops.2.1
    · have hx := graphSegs_graphDeleteAt g curr i h
      calc graphSegs g
          = graphSegs (graphDeleteAt g curr i) +
              {(graphFind g curr).get ⟨i, h⟩} := hx.symm
        _ = graphSegs (graphDeleteAt g curr i) +
              (([nxt] : List Seg) : Multiset Seg) := rfl
  | case2 curr used origin g i cands h nxt np hno hu ih =>
    intro tail g' heq hwf hcu
    rw [walkAux] at heq
    simp only [dif_pos h, if_neg hno, dif_pos hu] at heq
    exact ih tail g' heq hwf hcu
  | case3 curr used origin g i cands h nxt np hno hnu tail1 g1 hw ihInner =>
    intro tail g' heq hwf hcu
    rw [walkAux] at heq
    simp only [dif_pos h, if_neg hno, dif_neg hnu, hw, Option.some.injEq]
      at heq
    obtain ⟨rfl, rfl⟩ := heq
    have hcu' : np ∈ insert np used := Finset.mem_insert_self np used
    obtain ⟨hwf1, hpres1, segs1, hchain1, htail1, hlen1, hms1⟩ :=
      ihInner tail1 g1 hw hwf hcu'
    have hcurr_ne : curr ≠ np := fun hcn => hnu (hcn ▸ hcu)
    have hfind : graphFind g1 curr = graphFind g curr :=
      hpres1 curr (Finset.mem_insert_of_mem hcu) hcurr_ne
    have h1 : i < (graphFind g1 curr).length := by rw [hfind]; exact h
    have hget : (graphFind g1 curr).get ⟨i, h1⟩ = nxt := by
      revert h1
      rw [hfind]
      intro h1
      rfl
    have hprops := graphFind_props hwf (List.get_mem (graphFind g curr) i h)
    have hnxt_ne : nxt ≠ [] := by
      have h2 : 2 ≤ nxt.length := hprops.2.1
      intro hn
      rw [hn] at h2
      simp at h2
    refine ⟨GraphWF_graphDeleteAt hwf1, fun k hk hkc => ?_,
      nxt :: segs1, ?_, ?_, ?_, ?_⟩
    · rw [graphFind_graphDeleteAt_other g1 curr i k hkc]
      exact hpres1 k (Finset.mem_insert_of_mem hk)
        (fun hkn => hnu (hkn ▸ hk))
    · have h2 : IsChain (segLastD nxt) segs1 origin := hchain1
      have h3 := IsChain.cons nxt segs1 origin h2
      rw [hprops.1] at h3
      exact h3
    · rw [htail1]
      rw [joinElide_cons nxt segs1 (fun t ht => by
        have := hlen1 t ht
        intro hn
        rw [hn] at this
        simp at this)]
    · intro t ht
      rcases List.mem_cons.mp ht with rfl | ht'
      · exact hprops.2.1
      · exact hlen1 t ht'
    · have hdel := graphSegs_graphDeleteAt g1 curr i h1
      rw [hget] at hdel
      rw [hms1, ← hdel]
      have : ((nxt :: segs1 : List Seg) : Multiset Seg) =
          {nxt} + (segs1 : Multiset Seg) := by
        rfl
      rw [this]
      abel
  | case4 curr used origin g i cands h nxt np hno hnu hw ihInner ih =>
    intro tail g' heq hwf hcu
    rw [walkAux] at heq
    simp only [dif_pos h, if_neg hno, dif_neg hnu, hw] at heq
    exact ih tail g' heq hwf hcu
  | case5 curr used origin g i cands h =>
    intro tail g' heq hwf hcu
    rw [walkAux] at heq
    simp only [dif_neg h] at heq
    exact absurd heq (by simp)

/-! ### DFS completeness -/

theorem mem_keys_of_mem_graphFind {g : Graph} {k : Vertex} {s : Seg}
    (h : s ∈ graphFind g k) : k ∈ g.map Prod.fst := by
  induction g with
  | nil => simp [graphFind] at h
  | cons kv rest ih =>
    obtain ⟨k', b⟩ := kv
    simp only [graphFind] at h
    by_cases hk : k' = k
    · simp [hk]
    · rw [if_neg hk] at h
      simp [ih h]

theorem mem_graphFind_of_head {g : Graph} (hwf : GraphWF g) {s : Seg}
    {k : Vertex} (hs : s ∈ graphSegList g) (hh : segHeadD s = k) :
    s ∈ graphFind g k := by
  induction g with
  | nil => simp [graphSegList] at hs
  | cons kv rest ih =>
    obtain ⟨k', b⟩ := kv
    simp only [graphSegList, List.map_cons, List.flatten_cons,
      List.mem_append] at hs
    rcases hs with hs | hs
    · have hk' : segHeadD s = k' := (hwf.2 k' b (by simp) s hs).1
      have : k' = k := by rw [← hk', hh]
      subst this
      simp only [graphFind, if_pos rfl]
      exact hs
    · have hmem : s ∈ graphFind rest k := ih hwf.tail hs
      have hkeys : k ∈ rest.map Prod.fst := mem_keys_of_mem_graphFind hmem
      have hk : k' ≠ k := by
        intro hk
        subst hk
        have := hwf.1
        simp only [List.map_cons, List.nodup_cons] at this
        exact this.1 hkeys
      simp only [graphFind, if_neg hk]
      exact hmem

theorem mem_drop_of_ne_get {l : List Seg} {i : ℕ} {x : Seg}
    (hmem : x ∈ l.drop i) (h : i < l.length) (hne : x ≠ l.get ⟨i, h⟩) :
    x ∈ l.drop (i + 1) := by
  rw [List.drop_eq_getElem_cons h] at hmem
  rcases List.mem_cons.mp hmem with rfl | hmem'
  · exact absurd rfl hne
  · exact hmem'

theorem walkAux_completeness :
    ∀ curr used origin g i,
      GraphWF g → curr ∈ used → origin ∈ used →
      ∀ s1 rest, IsChain curr (s1 :: rest) origin →
      ((s1 :: rest : List Seg) : Multiset Seg) ≤ graphSegs g →
      (chainInts (s1 :: rest)).Nodup →
      (∀ v ∈ chainInts (s1 :: rest), v ∉ used) →
      s1 ∈ (graphFind g curr).drop i →
      walkAux curr used origin g i ≠ none := by
  intro curr used origin g i
  induction curr, used, origin, g, i using walkAux.induct with
  | case1 curr used g i cands h nxt np =>
    intro hwf hcu hou s1 rest hch hle hnd hav hdrop
    rw [walkAux]
    simp only [dif_pos h, eq_self_iff_true, if_true]
    simp
  | case2 curr used origin g i cands h nxt np hno hu ih =>
    intro hwf hcu hou s1 rest hch hle hnd hav hdrop
    have hs1ne : s1 ≠ nxt := by
      intro hs1
      have hnps : np = segLastD s1 := by
        show segLastD nxt = segLastD s1
        rw [hs1]
      cases rest with
      | nil =>
        cases hch with
        | single _ => exact hno hnps
        | cons s r e hr => exact absurd rfl hr.ne_nil
      | cons t r =>
        have hnp : np ∈ chainInts (s1 :: t :: r) := by
          rw [hnps, chainInts_cons]
          exact List.mem_cons_self _ _
        exact (hav np hnp) hu
    rw [walkAux]
    simp only [dif_pos h, if_neg hno, dif_pos hu]
    exact ih hwf hcu hou s1 rest hch hle hnd hav
      (mem_drop_of_ne_get hdrop h hs1ne)
  | case3 curr used origin g i cands h nxt np hno hnu tail1 g1 hw ihInner =>
    intro hwf hcu hou s1 rest hch hle hnd hav hdrop
    rw [walkAux]
    simp only [dif_pos h, if_neg hno, dif_neg hnu, hw]
    simp
  | case4 curr used origin g i cands h nxt np hno hnu hw ihInner ih =>
    intro hwf hcu hou s1 rest hch hle hnd hav hdrop
    by_cases hs1 : s1 = nxt
    · exfalso
      have hnps : np = segLastD s1 := by
        show segLastD nxt = segLastD s1
        rw [hs1]
      cases rest with
      | nil =>
        cases hch with
        | single _ => exact hno hnps
        | cons s r e hr => exact absurd rfl hr.ne_nil
      | cons t r =>
        -- the inner walk from np must succeed, contradicting hw
        have hrest : IsChain np (t :: r) origin := by
          cases hch with
          | cons s rr e hr =>
            rw [hnps]
            exact hr
        have hle' : ((t :: r : List Seg) : Multiset Seg) ≤ graphSegs g :=
          le_trans (Multiset.le_cons_self _ _) hle
        have hints : chainInts (s1 :: t :: r) =
            segLastD s1 :: chainInts (t :: r) := chainInts_cons _ _ _
        have hnd' : (chainInts (t :: r)).Nodup := by
          rw [hints] at hnd
          exact (List.nodup_cons.mp hnd).2
        have hav' : ∀ v ∈ chainInts (t :: r), v ∉ insert np used := by
          intro v hv
          rw [Finset.mem_insert]
          push_neg
          constructor
          · intro hvnp
            rw [hints] at hnd
            exact (List.nodup_cons.mp hnd).1 (by rw [← hnps, ← hvnp]; exact hv)
          · exact hav v (by rw [hints]; exact List.mem_cons_of_mem _ hv)
        have hthead : segHeadD t = np := hrest.head_eq
        have htg : t ∈ graphFind g np := by
          apply mem_graphFind_of_head hwf _ hthead
          have : t ∈ ((t :: r : List Seg) : Multiset Seg) := by simp
          have hmem := Multiset.mem_of_le hle' this
          simpa [graphSegs] using hmem
        exact ihInner hwf (Finset.mem_insert_self np used)
          (Finset.mem_insert_of_mem hou) t r hrest hle' hnd' hav'
          (by simpa using htg) hw
    · rw [walkAux]
      simp only [dif_pos h, if_neg hno, dif_neg hnu, hw]
      exact ih hwf hcu hou s1 rest hch hle hnd hav
        (mem_drop_of_ne_get hdrop h hs1)
  | case5 curr used origin g i cands h =>
    intro hwf hcu hou s1 rest hch hle hnd hav hdrop
    exfalso
    have hc : cands = graphFind g curr := rfl
    have : (graphFind g curr).drop i = [] :=
      List.drop_eq_nil_of_le (by rw [← hc]; omega)
    rw [this] at hdrop
    simp at hdrop

/-- Deleting at a key erases exactly that index in that key's bucket. -/
theorem graphFind_graphDeleteAt_self (g : Graph) (k : Vertex) (i : ℕ) :
    graphFind (graphDeleteAt g k i) k = (graphFind g k).eraseIdx i :=
  graphFind_graphSet_self g k _

/-- Writing at an existing key does not change the key list. -/
theorem keys_graphSet_of_mem {g : Graph} {k : Vertex} (v : List Seg)
    (h : k ∈ g.map Prod.fst) :
    (graphSet g k v).map Prod.fst = g.map Prod.fst := by
  induction g with
  | nil => simp at h
  | cons kv rest ih =>
    obtain ⟨k0, b⟩ := kv
    by_cases hk : k0 = k
    · subst hk
      simp [graphSet]
    · simp only [List.map_cons, List.mem_cons] at h
      rcases h with h | h
      · exact absurd h.symm hk
      · simp only [graphSet, if_neg hk, List.map_cons, List.cons.injEq]
        exact ⟨trivial, ih h⟩

/-- A nonempty bucket's key is present in the key list. -/
theorem mem_keys_of_graphFind_ne_nil {g : Graph} {k : Vertex}
    (h : graphFind g k ≠ []) : k ∈ g.map Prod.fst := by
  cases hc : graphFind g k with
  | nil => exact absurd hc h
  | cons s ss =>
    exact mem_keys_of_mem_graphFind (g := g) (k := k) (s := s)
      (by rw [hc]; simp)

/-- A successful `walk` only deletes stored segments: every bucket of the
final graph is a sublist of the corresponding initial bucket. -/
theorem walkAux_sublist :
    ∀ curr used origin g i, ∀ tail g',
      walkAux curr used origin g i = some (tail, g') →
      ∀ k, (graphFind g' k).Sublist (graphFind g k) := by
  intro curr used origin g i
  induction curr, used, origin, g, i using walkAux.induct with
  | case1 curr used g i cands h nxt np =>
    intro tail g' heq k
    rw [walkAux] at heq
    simp only [dif_pos h, eq_self_iff_true, if_true, Option.some.injEq] at heq
    obtain ⟨-, rfl⟩ := heq
    by_cases hk : k = curr
    · subst hk
      rw [graphFind_graphDeleteAt_self]
      exact List.eraseIdx_sublist _ _
    · rw [graphFind_graphDeleteAt_other g curr i k hk]
  | case2 curr used origin g i cands h nxt np hno hu ih =>
    intro tail g' heq k
    rw [walkAux] at heq
    simp only [dif_pos h, if_neg hno, dif_pos hu] at heq
    exact ih tail g' heq k
  | case3 curr used origin g i cands h nxt np hno hnu tail1 g1 hw ihInner =>
    intro tail g' heq k
    rw [walkAux] at heq
    simp only [dif_pos h, if_neg hno, dif_neg hnu, hw, Option.some.injEq]
      at heq
    obtain ⟨-, rfl⟩ := heq
    by_cases hk : k = curr
    · subst hk
      rw [graphFind_graphDeleteAt_self]
      exact (List.eraseIdx_sublist _ _).trans (ihInner tail1 g1 hw k)
    · rw [graphFind_graphDeleteAt_other g1 curr i k hk]
      exact ihInner tail1 g1 hw k
  | case4 curr used origin g i cands h nxt np hno hnu hw ihInner ih =>
    intro tail g' heq k
    rw [walkAux] at heq
    simp only [dif_pos h, if_neg hno, dif_neg hnu, hw] at heq
    exact ih tail g' heq k
  | case5 curr used origin g i cands h =>
    intro tail g' heq k
    rw [walkAux] at heq
    simp only [dif_neg h] at heq
    exact absurd heq (by simp)

/-- A successful `walk` leaves the key list unchanged (every deletion
happens at a key whose bucket is nonempty, hence already present). -/
theorem walkAux_keys :
    ∀ curr used origin g i, ∀ tail g',
      walkAux curr used origin g i = some (tail, g') →
      g'.map Prod.fst = g.map Prod.fst := by
  intro curr used origin g i
  induction curr, used, origin, g, i using walkAux.induct with
  | case1 curr used g i cands h nxt np =>
    intro tail g' heq
    rw [walkAux] at heq
    simp only [dif_pos h, eq_self_iff_true, if_true, Option.some.injEq] at heq
    obtain ⟨-, rfl⟩ := heq
    have hmem : curr ∈ g.map Prod.fst :=
      mem_keys_of_graphFind_ne_nil (by
        intro hnil
        have h' : i < (graphFind g curr).length := h
        rw [hnil] at h'
        simp at h')
    exact keys_graphSet_of_mem _ hmem
  | case2 curr used origin g i cands h nxt np hno hu ih =>
    intro tail g' heq
    rw [walkAux] at heq
    simp only [dif_pos h, if_neg hno, dif_pos hu] at heq
    exact ih tail g' heq
  | case3 curr used origin g i cands h nxt np hno hnu tail1 g1 hw ihInner =>
    intro tail g' heq
    rw [walkAux] at heq
    simp only [dif_pos h, if_neg hno, dif_neg hnu, hw, Option.some.injEq]
      at heq
    obtain ⟨-, rfl⟩ := heq
    have hk1 := ihInner tail1 g1 hw
    have hmem : curr ∈ g1.map Prod.fst := by
      rw [hk1]
      refine mem_keys_of_graphFind_ne_nil ?_
      intro hnil
      have h' : i < (graphFind g curr).length := h
      rw [hnil] at h'
      simp at h'
    rw [graphDeleteAt, keys_graphSet_of_mem _ hmem, hk1]
  | case4 curr used origin g i cands h nxt np hno hnu hw ihInner ih =>
    intro tail g' heq
    rw [walkAux] at heq
    simp only [dif_pos h, if_neg hno, dif_neg hnu, hw] at heq
    exact ih tail g' heq
  | case5 curr used origin g i cands h =>
    intro tail g' heq
    rw [walkAux] at heq
    simp only [dif_neg h] at heq
    exact absurd heq (by simp)

/-! ### Balance and the conserved vertex measure -/

/-- Per-vertex balance of a fill graph: as many stored segments end at
each point as start there. -/
def Balanced (g : Graph) : Prop := ∀ v, graphOut g v = graphIn g v

/-- A segment's vertex span: its point count less one (the number of
junction-to-junction steps it contributes; this is the quantity the
assembler conserves, since joining elides one repeated point per join
and closing a ring elides none). -/
def segSpan (s : Seg) : ℕ := s.length - 1

/-- Total span of a multiset of segments. -/
def mspan (M : Multiset Seg) : ℕ := (M.map segSpan).sum

theorem mspan_add (M N : Multiset Seg) :
    mspan (M + N) = mspan M + mspan N := by
  simp [mspan]

theorem mspan_coe (l : List Seg) :
    mspan (l : Multiset Seg) = (l.map segSpan).sum := by
  simp [mspan]

theorem mspan_singleton (s : Seg) : mspan {s} = segSpan s := by
  simp [mspan]

theorem graphOut_eq_countP (g : Graph) (v : Vertex) :
    graphOut g v = (graphSegs g).countP (fun s => segHeadD s = v) := by
  simp [graphOut, graphSegs, Multiset.coe_countP]

theorem graphIn_eq_countP (g : Graph) (v : Vertex) :
    graphIn g v = (graphSegs g).countP (fun s => segLastD s = v) := by
  simp [graphIn, graphSegs, Multiset.coe_countP]

theorem segHeadD_append (a x : Seg) (h : a ≠ []) :
    segHeadD (a ++ x) = segHeadD a := by
  cases a with
  | nil => exact absurd rfl h
  | cons p t => rfl

theorem sum_segSpan_add_length (l : List Seg)
    (h : ∀ t ∈ l, 1 ≤ t.length) :
    (l.map segSpan).sum + l.length = (l.map List.length).sum := by
  induction l with
  | nil => simp
  | cons t r ih =>
    have h1 := h t (by simp)
    have h2 := ih (fun u hu => h u (by simp [hu]))
    simp only [List.map_cons, List.sum_cons, List.length_cons, segSpan]
    omega



/-- `countP` of a one-element multiset. -/
theorem countP_single (p : Seg → Prop) [DecidablePred p] (a : Seg) :
    Multiset.countP p {a} = if p a then 1 else 0 := by
  have h1 : ({a} : Multiset Seg) = a ::ₘ 0 := rfl
  rw [h1, Multiset.countP_cons, Multiset.countP_zero, zero_add]

/-- Splitting a graph's segment multiset splits any count. -/
theorem countP_decomp (g g2 : Graph) (pl : Seg) (ws : List Seg)
    (p : Seg → Prop) [DecidablePred p] (pb : Seg → Bool)
    (hpb : ∀ s, pb s = decide (p s))
    (htot : graphSegs g = graphSegs g2 + (ws : Multiset Seg) + {pl}) :
    (graphSegs g).countP p =
      (graphSegs g2).countP p + (pl :: ws).countP pb := by
  have hws : (ws : Multiset Seg).countP p = ws.countP pb := by
    rw [Multiset.coe_countP]
    congr 1
    funext s
    rw [hpb s]
  rw [htot, Multiset.countP_add, Multiset.countP_add, hws,
    countP_single, List.countP_cons, hpb pl]
  by_cases hp : p pl
  · simp only [hp, decide_True, if_true]
    omega
  · simp only [hp, decide_False, if_false, Bool.false_eq_true]
    omega



/-- One iteration of the per-origin assembly loop: at a balanced,
well-formed graph whose origin bucket is nonempty, popping the last point
list and walking from its end point always succeeds, and the committed
ring is closed at the origin, the graph stays balanced and well-formed,
and the graph's span shrinks by exactly the ring's span. -/
theorem assemble_step (g : Graph) (origin : Vertex) (c : Seg)
    (cs : List Seg) (hwf : GraphWF g) (hbal : Balanced g)
    (hc : graphFind g origin = c :: cs) :
    ∃ tail g2,
      walk (segLastD ((c :: cs).getLast (by simp)))
          {origin, segLastD ((c :: cs).getLast (by simp))} origin
          (graphSet g origin (c :: cs).dropLast) = some (tail, g2) ∧
      GraphWF g2 ∧ Balanced g2 ∧
      graphFind g2 origin = (c :: cs).dropLast ∧
      (∀ k, (graphFind g2 k).Sublist (graphFind g k)) ∧
      g2.map Prod.fst = g.map Prod.fst ∧
      segHeadD ((c :: cs).getLast (by simp) ++ tail.drop 1) = origin ∧
      segLastD ((c :: cs).getLast (by simp) ++ tail.drop 1) = origin ∧
      2 ≤ ((c :: cs).getLast (by simp) ++ tail.drop 1).length ∧
      mspan (graphSegs g) = mspan (graphSegs g2) +
        segSpan ((c :: cs).getLast (by simp) ++ tail.drop 1) ∧
      Multiset.card (graphSegs g2) < Multiset.card (graphSegs g) ∧
      ∃ ch, ch ≠ [] ∧ IsChain origin ch origin ∧
        (∀ t ∈ ch, 2 ≤ t.length) ∧
        (c :: cs).getLast (by simp) ++ tail.drop 1 = joinElide ch ∧
        graphSegs g = graphSegs g2 + (ch : Multiset Seg) := by
  generalize hpl : (c :: cs).getLast (by simp) = pl
  have hplmem : pl ∈ graphFind g origin := by
    rw [hc, ← hpl]
    exact List.getLast_mem (by simp)
  have hprops := graphFind_props hwf hplmem
  have hhead : segHeadD pl = origin := hprops.1
  have hpl2 : 2 ≤ pl.length := hprops.2.1
  have hplne : pl ≠ [] := by
    cases pl with
    | nil => simp at hpl2
    | cons a t => simp
  have hcurrne : segLastD pl ≠ origin := by
    rw [← hhead]
    exact hprops.2.2
  have hwf1 : GraphWF (graphSet g origin (c :: cs).dropLast) := by
    refine GraphWF_graphSet hwf (fun s hs => ?_)
    have hsm : s ∈ graphFind g origin := by
      rw [hc]
      exact (List.dropLast_sublist (c :: cs)).subset hs
    exact graphFind_props hwf hsm
  have hsplit : c :: cs = (c :: cs).dropLast ++ [pl] := by
    rw [← hpl]
    exact (List.dropLast_append_getLast (by simp)).symm
  have hgg1 : graphSegs g =
      graphSegs (graphSet g origin (c :: cs).dropLast) + {pl} := by
    have hx := graphSegs_graphSet g origin (c :: cs).dropLast
    rw [hc] at hx
    have hco : ((c :: cs : List Seg) : Multiset Seg) =
        (((c :: cs).dropLast : List Seg) : Multiset Seg) + {pl} := by
      conv_lhs => rw [hsplit]
      rfl
    rw [hco, ← add_assoc] at hx
    rw [add_right_comm] at hx
    exact (add_right_cancel hx).symm
  have hexc : ∀ v,
      (graphSegs (graphSet g origin (c :: cs).dropLast)).countP
          (fun s => segHeadD s = v) + (if v = origin then 1 else 0) =
        (graphSegs (graphSet g origin (c :: cs).dropLast)).countP
          (fun s => segLastD s = v) +
          (if v = segLastD pl then 1 else 0) := by
    intro v
    have hb : (graphSegs g).countP (fun s => segHeadD s = v) =
        (graphSegs g).countP (fun s => segLastD s = v) := by
      have h1 := hbal v
      rw [graphOut_eq_countP, graphIn_eq_countP] at h1
      exact h1
    rw [hgg1, Multiset.countP_add, Multiset.countP_add,
      countP_single, countP_single] at hb
    have hh1 : (if segHeadD pl = v then 1 else 0) =
        (if v = origin then 1 else 0) := by
      by_cases hv : v = origin
      · subst hv
        rw [if_pos hhead, if_pos rfl]
      · rw [if_neg (fun hcon => hv (by rw [← hcon]; exact hhead)),
          if_neg hv]
    have hh2 : (if segLastD pl = v then 1 else 0) =
        (if v = segLastD pl then 1 else 0) := by
      by_cases hv : v = segLastD pl
      · subst hv
        rfl
      · rw [if_neg (fun hcon => hv hcon.symm), if_neg hv]
    rw [hh1, hh2] at hb
    omega
  obtain ⟨segs0, hch0, hle0⟩ := chain_exists
    (Multiset.card (graphSegs (graphSet g origin (c :: cs).dropLast)))
    (graphSegs (graphSet g origin (c :: cs).dropLast))
    (segLastD pl) origin le_rfl hcurrne hexc
  obtain ⟨segs1, hch1, hle1, hnd1, hints1⟩ := exists_simple_chain
    segs0.length segs0 (segLastD pl) origin le_rfl hch0
  cases segs1 with
  | nil => exact absurd rfl hch1.ne_nil
  | cons s1 rest =>
  have husedint : ∀ v ∈ chainInts (s1 :: rest),
      v ∉ ({origin, segLastD pl} : Finset Vertex) := by
    intro v hv
    have h2 := hints1 v hv
    simp only [Finset.mem_insert, Finset.mem_singleton]
    push_neg
    exact ⟨h2.2, h2.1⟩
  have hs1drop : s1 ∈ (graphFind (graphSet g origin (c :: cs).dropLast)
      (segLastD pl)).drop 0 := by
    have hmem : s1 ∈ graphSegs (graphSet g origin (c :: cs).dropLast) :=
      Multiset.mem_of_le (le_trans hle1 hle0) (by simp)
    have hlist : s1 ∈ graphSegList (graphSet g origin (c :: cs).dropLast) :=
      by simpa [graphSegs] using hmem
    simpa using mem_graphFind_of_head hwf1 hlist hch1.head_eq
  have hcomp := walkAux_completeness (segLastD pl)
    {origin, segLastD pl} origin (graphSet g origin (c :: cs).dropLast) 0
    hwf1 (by simp) (by simp) s1 rest hch1 (le_trans hle1 hle0) hnd1
    husedint hs1drop
  cases hwcase : walk (segLastD pl) {origin, segLastD pl} origin
      (graphSet g origin (c :: cs).dropLast) with
  | none => exact absurd hwcase hcomp
  | some tg =>
  obtain ⟨tail, g2⟩ := tg
  have hwaux : walkAux (segLastD pl) {origin, segLastD pl} origin
      (graphSet g origin (c :: cs).dropLast) 0 = some (tail, g2) := hwcase
  obtain ⟨hwf2, hpres, wsegs, hwch, htail, hwlen, hmeq⟩ :=
    walkAux_spec (segLastD pl) {origin, segLastD pl} origin
      (graphSet g origin (c :: cs).dropLast) 0 tail g2 hwaux hwf1 (by simp)
  have horigne : origin ≠ segLastD pl := fun hh => hcurrne hh.symm
  have hfind2 : graphFind g2 origin = (c :: cs).dropLast := by
    rw [hpres origin (by simp) horigne, graphFind_graphSet_self]
  have htot : graphSegs g =
      graphSegs g2 + (wsegs : Multiset Seg) + {pl} := by
    rw [hgg1, hmeq]
  obtain ⟨w1, wr, rfl⟩ : ∃ w1 wr, wsegs = w1 :: wr := by
    cases wsegs with
    | nil => exact absurd rfl hwch.ne_nil
    | cons a b => exact ⟨a, b, rfl⟩
  have hw1len : 2 ≤ w1.length := hwlen w1 (by simp)
  have htail2 : 2 ≤ tail.length := by
    rw [htail]
    simp only [joinElide, List.length_append]
    omega
  have hdropne : tail.drop 1 ≠ [] := by
    intro hnil
    have hlen0 : (tail.drop 1).length = 0 := by rw [hnil]; rfl
    have hlend : (tail.drop 1).length = tail.length - 1 := by simp
    omega
  refine ⟨tail, g2, rfl, hwf2, ?_, hfind2, ?_, ?_, ?_, ?_, ?_, ?_, ?_, ?_⟩
  · -- Balanced g2
    intro v
    have hringch : IsChain origin (pl :: w1 :: wr) origin := by
      have h1 := IsChain.cons pl (w1 :: wr) origin hwch
      rw [hhead] at h1
      exact h1
    have hcnt := hringch.count_eq v
    have hbH := countP_decomp g g2 pl (w1 :: wr)
      (fun s => segHeadD s = v) (fun s => decide (segHeadD s = v))
      (fun s => rfl) htot
    have hbL := countP_decomp g g2 pl (w1 :: wr)
      (fun s => segLastD s = v) (fun s => decide (segLastD s = v))
      (fun s => rfl) htot
    have hb := hbal v
    rw [graphOut_eq_countP, graphIn_eq_countP] at hb
    rw [graphOut_eq_countP, graphIn_eq_countP]
    omega
  · -- buckets only shrink
    intro k
    have h2 := walkAux_sublist _ _ _ _ _ _ _ hwaux k
    by_cases hk : k = origin
    · subst hk
      rw [graphFind_graphSet_self] at h2
      refine h2.trans ?_
      rw [hc]
      exact List.dropLast_sublist (c :: cs)
    · rw [graphFind_graphSet_other g origin _ k hk] at h2
      exact h2
  · -- key list unchanged
    have h2 := walkAux_keys _ _ _ _ _ _ _ hwaux
    rw [h2]
    exact keys_graphSet_of_mem _
      (mem_keys_of_graphFind_ne_nil (by rw [hc]; simp))
  · -- ring starts at the origin
    rw [segHeadD_append pl _ hplne]
    exact hhead
  · -- ring ends at the origin
    rw [segLastD_append pl _ hdropne, segLastD_drop_one tail htail2, htail]
    exact segLastD_joinElide hwch hwlen
  · -- ring has at least two points
    simp only [List.length_append]
    omega
  · -- span accounting
    have hm1 : mspan (graphSegs g) =
        mspan (graphSegs g2) + ((w1 :: wr).map segSpan).sum + segSpan pl := by
      rw [htot, mspan_add, mspan_add, mspan_coe, mspan_singleton]
    have hj := length_joinElide w1 wr (fun t ht => by
      have h3 := hwlen t (by simp [ht])
      intro hnil
      rw [hnil] at h3
      simp at h3)
    have hs := sum_segSpan_add_length (w1 :: wr) (fun t ht => by
      have h3 := hwlen t ht
      omega)
    have hlen1 : (pl ++ tail.drop 1).length =
        pl.length + (tail.length - 1) := by simp
    have hlen2 : tail.length = (joinElide (w1 :: wr)).length := by
      rw [htail]
    simp only [List.length_cons] at hs hj
    simp only [segSpan] at hm1 hs ⊢
    omega
  · -- the graph shrinks
    have hcard := congrArg Multiset.card htot
    simp only [Multiset.card_add, Multiset.coe_card,
      Multiset.card_singleton] at hcard
    omega
  · -- the committed ring is the elided join of a chain of removed
    -- stored segments
    refine ⟨pl :: w1 :: wr, by simp, ?_, ?_, ?_, ?_⟩
    · have h1 := IsChain.cons pl (w1 :: wr) origin hwch
      rw [hhead] at h1
      exact h1
    · intro t ht
      rcases List.mem_cons.mp ht with rfl | ht
      · exact hpl2
      · exact hwlen t ht
    · have hwne : ∀ t ∈ (w1 :: wr), t ≠ [] := by
        intro t ht hnil
        have h3 := hwlen t ht
        rw [hnil] at h3
        simp at h3
      rw [joinElide_cons pl (w1 :: wr) hwne, htail]
    · rw [htot]
      have hco : ((w1 :: wr : List Seg) : Multiset Seg) + {pl} =
          ((pl :: w1 :: wr : List Seg) : Multiset Seg) := by
        rw [add_comm, Multiset.singleton_add, Multiset.cons_coe]
      rw [add_assoc, hco]



/-- The per-origin assembly loop on a balanced, well-formed graph always
succeeds; it empties the origin's bucket, only shrinks the other buckets,
keeps the key list, preserves balance and well-formedness, and every
committed ring is closed at the origin, with the graph's span shrinking
by exactly the rings' total span. -/
theorem assembleAtOrigin_spec :
    ∀ n g, Multiset.card (graphSegs g) ≤ n →
      ∀ origin acc, GraphWF g → Balanced g →
      ∃ rings g', assembleAtOrigin origin g acc = .ok (acc ++ rings, g') ∧
        GraphWF g' ∧ Balanced g' ∧
        graphFind g' origin = [] ∧
        (∀ k, (graphFind g' k).Sublist (graphFind g k)) ∧
        g'.map Prod.fst = g.map Prod.fst ∧
        (∀ r ∈ rings, segHeadD r = origin ∧ segLastD r = origin ∧
          2 ≤ r.length) ∧
        mspan (graphSegs g) = mspan (graphSegs g') +
          (rings.map segSpan).sum ∧
        ∃ chs : List (List Seg), rings = chs.map joinElide ∧
          (∀ ch ∈ chs, ch ≠ [] ∧ IsChain origin ch origin ∧
            ∀ t ∈ ch, 2 ≤ t.length) ∧
          graphSegs g = graphSegs g' + (chs.flatten : Multiset Seg) := by
  intro n
  induction n with
  | zero =>
    intro g hcard origin acc hwf hbal
    have hnil : graphFind g origin = [] := by
      cases hcg : graphFind g origin with
      | nil => rfl
      | cons a l =>
        exfalso
        have hm : a ∈ graphSegList g :=
          mem_graphSegList_of_mem_graphFind (by rw [hcg]; simp)
        have hpos : 0 < Multiset.card (graphSegs g) := by
          have hlp : 0 < (graphSegList g).length :=
            List.length_pos.mpr (List.ne_nil_of_mem hm)
          simpa [graphSegs] using hlp
        omega
    refine ⟨[], g, ?_, hwf, hbal, hnil, fun k => List.Sublist.refl _, rfl,
      by simp, by simp, [], rfl, by simp, by simp⟩
    rw [assembleAtOrigin_nil origin g acc hnil, List.append_nil]
  | succ m ih =>
    intro g hcard origin acc hwf hbal
    cases hcg : graphFind g origin with
    | nil =>
      refine ⟨[], g, ?_, hwf, hbal, hcg, fun k => List.Sublist.refl _, rfl,
        by simp, by simp, [], rfl, by simp, by simp⟩
      rw [assembleAtOrigin_nil origin g acc hcg, List.append_nil]
    | cons c cs =>
      obtain ⟨tail, g2, hwk, hwf2, hbal2, hfind2, hsub2, hkeys2, hrh, hrl,
        hrlen, hms, hcd, ch0, hch0ne, hch0chain, hch0len, hch0eq, hch0ms⟩ :=
        assemble_step g origin c cs hwf hbal hcg
      have hstep := assembleAtOrigin_cons_some origin g acc c cs tail g2
        hcg hwk
      obtain ⟨rings, g', hrec, hwf', hbal', hnil', hsub', hkeys', hrings',
        hms', chs1, hchs1eq, hchs1props, hchs1ms⟩ := ih g2 (by omega) origin
          (acc ++ [(c :: cs).getLast (by simp) ++ tail.drop 1]) hwf2 hbal2
      refine ⟨((c :: cs).getLast (by simp) ++ tail.drop 1) :: rings, g',
        ?_, hwf', hbal', hnil', ?_, ?_, ?_, ?_, ?_⟩
      · rw [hstep, hrec, List.append_assoc, List.singleton_append]
      · intro k
        exact (hsub' k).trans (hsub2 k)
      · rw [hkeys', hkeys2]
      · intro r hr
        rcases List.mem_cons.mp hr with rfl | hr
        · exact ⟨hrh, hrl, hrlen⟩
        · exact hrings' r hr
      · simp only [List.map_cons, List.sum_cons]
        omega
      · refine ⟨ch0 :: chs1, ?_, ?_, ?_⟩
        · simp only [List.map_cons, List.cons.injEq]
          exact ⟨hch0eq, hchs1eq⟩
        · intro ch hch
          rcases List.mem_cons.mp hch with rfl | hch
          · exact ⟨hch0ne, hch0chain, hch0len⟩
          · exact hchs1props ch hch
        · simp only [List.flatten_cons]
          have hco : ((ch0 ++ chs1.flatten : List Seg) : Multiset Seg) =
              (ch0 : Multiset Seg) + (chs1.flatten : Multiset Seg) := rfl
          rw [hco, hch0ms, hchs1ms, add_assoc,
            add_comm ((chs1.flatten : List Seg) : Multiset Seg)
              (ch0 : Multiset Seg)]


/-- With unique keys, the bucket found at a bound key is its binding. -/
theorem graphFind_eq_of_mem {g : Graph} (hnd : (g.map Prod.fst).Nodup)
    {k : Vertex} {segs : List Seg} (h : (k, segs) ∈ g) :
    graphFind g k = segs := by
  induction g with
  | nil => simp at h
  | cons kv rest ih =>
    obtain ⟨k0, b⟩ := kv
    simp only [List.map_cons, List.nodup_cons] at hnd
    rcases List.mem_cons.mp h with h | h
    · obtain ⟨rfl, rfl⟩ : k0 = k ∧ b = segs := by
        cases h
        exact ⟨rfl, rfl⟩
      simp [graphFind]
    · have hk : k0 ≠ k := by
        intro hk
        subst hk
        exact hnd.1 (List.mem_map.mpr ⟨(k0, segs), h, rfl⟩)
      simp only [graphFind, if_neg hk]
      exact ih hnd.2 h

/-- If every binding's bucket is empty the graph stores no segments. -/
theorem graphSegList_eq_nil (g : Graph) (h : ∀ kv ∈ g, kv.2 = []) :
    graphSegList g = [] := by
  induction g with
  | nil => rfl
  | cons kv rest ih =>
    simp only [graphSegList, List.map_cons, List.flatten_cons]
    rw [h kv (by simp)]
    simp only [List.nil_append]
    exact ih (fun kv2 h2 => h kv2 (by simp [h2]))

/-- Unfolding `assembleKeys` across a successful head step. -/
theorem assembleKeys_cons_ok (k : Vertex) (ks : List Vertex) (g : Graph)
    (acc acc' : List Seg) (g1 : Graph)
    (h : assembleAtOrigin k g acc = .ok (acc', g1)) :
    assembleKeys (k :: ks) g acc = assembleKeys ks g1 acc' := by
  simp only [assembleKeys]
  rw [h]

/-- The `for origin in fill_graph.keys()` loop on a balanced, well-formed
graph: it succeeds, empties the bucket of every visited key, only shrinks
buckets, and appends only closed rings whose total span is what the graph
lost. -/
theorem assembleKeys_spec :
    ∀ (keys : List Vertex) (g : Graph) (acc : List Seg),
      GraphWF g → Balanced g →
      ∃ rings g', assembleKeys keys g acc = .ok (acc ++ rings, g') ∧
        GraphWF g' ∧ Balanced g' ∧
        (∀ k, (graphFind g' k).Sublist (graphFind g k)) ∧
        g'.map Prod.fst = g.map Prod.fst ∧
        (∀ k ∈ keys, graphFind g' k = []) ∧
        (∀ r ∈ rings, segHeadD r = segLastD r ∧ 2 ≤ r.length) ∧
        mspan (graphSegs g) = mspan (graphSegs g') +
          (rings.map segSpan).sum ∧
        ∃ chs : List (List Seg), rings = chs.map joinElide ∧
          (∀ ch ∈ chs, ch ≠ [] ∧ (∃ o, IsChain o ch o) ∧
            ∀ t ∈ ch, 2 ≤ t.length) ∧
          graphSegs g = graphSegs g' + (chs.flatten : Multiset Seg) := by
  intro keys
  induction keys with
  | nil =>
    intro g acc hwf hbal
    refine ⟨[], g, ?_, hwf, hbal, fun k => List.Sublist.refl _, rfl,
      by simp, by simp, by simp, [], rfl, by simp, by simp⟩
    rw [List.append_nil]
    rfl
  | cons k ks ih =>
    intro g acc hwf hbal
    obtain ⟨rings1, g1, h1, hwf1, hbal1, hnil1, hsub1, hkeys1, hrings1,
      hms1, chs1, hchs1eq, hchs1props, hchs1ms⟩ :=
      assembleAtOrigin_spec (Multiset.card (graphSegs g)) g
        le_rfl k acc hwf hbal
    obtain ⟨rings2, g2, h2, hwf2, hbal2, hsub2, hkeys2, hempty2, hrings2,
      hms2, chs2, hchs2eq, hchs2props, hchs2ms⟩ :=
      ih g1 (acc ++ rings1) hwf1 hbal1
    refine ⟨rings1 ++ rings2, g2, ?_, hwf2, hbal2, ?_, ?_, ?_, ?_, ?_, ?_⟩
    · rw [assembleKeys_cons_ok k ks g acc _ g1 h1, h2, List.append_assoc]
    · intro k0
      exact (hsub2 k0).trans (hsub1 k0)
    · rw [hkeys2, hkeys1]
    · intro k0 hk0
      rcases List.mem_cons.mp hk0 with rfl | hk0
      · have hs := hsub2 k0
        rw [hnil1] at hs
        exact List.sublist_nil.mp hs
      · exact hempty2 k0 hk0
    · intro r hr
      rcases List.mem_append.mp hr with hr | hr
      · have h3 := hrings1 r hr
        exact ⟨by rw [h3.1, h3.2.1], h3.2.2⟩
      · exact hrings2 r hr
    · simp only [List.map_append, List.sum_append]
      omega
    · refine ⟨chs1 ++ chs2, ?_, ?_, ?_⟩
      · rw [List.map_append, hchs1eq, hchs2eq]
      · intro ch hch
        rcases List.mem_append.mp hch with hch | hch
        · have h3 := hchs1props ch hch
          exact ⟨h3.1, ⟨k, h3.2.1⟩, h3.2.2⟩
        · exact hchs2props ch hch
      · rw [List.flatten_append]
        have hco : ((chs1.flatten ++ chs2.flatten : List Seg) :
              Multiset Seg) =
            (chs1.flatten : Multiset Seg) +
              (chs2.flatten : Multiset Seg) := rfl
        rw [hco, hchs1ms, hchs2ms, add_assoc,
          add_comm ((chs2.flatten : List Seg) : Multiset Seg)
            ((chs1.flatten : List Seg) : Multiset Seg)]

/-- Assembling one fill's balanced, well-formed graph succeeds, returns
only closed rings, and the rings' total span equals the graph's span. -/
theorem assembleFill_spec (g : Graph) (hwf : GraphWF g) (hbal : Balanced g) :
    ∃ rings g', assembleFill g = .ok (rings, g') ∧
      (∀ r ∈ rings, segHeadD r = segLastD r ∧ 2 ≤ r.length) ∧
      mspan (graphSegs g) = (rings.map segSpan).sum ∧
      ∃ chs : List (List Seg), rings = chs.map joinElide ∧
        (∀ ch ∈ chs, ch ≠ [] ∧ (∃ o, IsChain o ch o) ∧
          ∀ t ∈ ch, 2 ≤ t.length) ∧
        graphSegs g = (chs.flatten : Multiset Seg) := by
  obtain ⟨rings, g', h1, hwf', hbal', hsub', hkeys', hempty', hrings',
    hms', chs, hchseq, hchsprops, hchsms⟩ :=
    assembleKeys_spec (g.map Prod.fst) g [] hwf hbal
  have hz : graphSegList g' = [] := by
    refine graphSegList_eq_nil g' (fun kv hkv => ?_)
    have hkmem : kv.1 ∈ g.map Prod.fst := by
      rw [← hkeys']
      exact List.mem_map.mpr ⟨kv, hkv, rfl⟩
    have hfind : graphFind g' kv.1 = kv.2 :=
      graphFind_eq_of_mem hwf'.1 (by
        obtain ⟨a, b⟩ := kv
        exact hkv)
    rw [← hfind]
    exact hempty' kv.1 hkmem
  refine ⟨rings, g', ?_, hrings', ?_, chs, hchseq, hchsprops, ?_⟩
  · show assembleKeys (g.map Prod.fst) g [] = .ok (rings, g')
    rw [h1, List.nil_append]
  · have hz2 : mspan (graphSegs g') = 0 := by
      simp [graphSegs, hz, mspan]
    omega
  · have hz3 : graphSegs g' = 0 := by
      simp [graphSegs, hz]
    rw [hchsms, hz3, zero_add]


/-! ### Reading the intake accumulators -/

/-- `shapes[fill_id]` for reading (`[]` if absent). -/
def shapesFind : ShapeMap → FillId → List Seg
  | [], _ => []
  | (f', ss) :: rest, f => if f' = f then ss else shapesFind rest f

/-- `graph[fill_id]` for reading (`[]` if absent). -/
def graphsFind : FillGraphs → FillId → Graph
  | [], _ => []
  | (f', fg) :: rest, f => if f' = f then fg else graphsFind rest f

/-- The input point lists carrying fill `fid` that are already closed
(`point_list[0] == point_list[-1]`), in input order. -/
def closedSegsFor : List (Seg × FillId) → FillId → List Seg
  | [], _ => []
  | x :: rest, fid =>
    if x.2 = fid ∧ segHeadD x.1 = segLastD x.1
    then x.1 :: closedSegsFor rest fid
    else closedSegsFor rest fid

/-- The open input point lists carrying fill `fid`, in input order. -/
def openSegsFor : List (Seg × FillId) → FillId → List Seg
  | [], _ => []
  | x :: rest, fid =>
    if x.2 = fid ∧ segHeadD x.1 ≠ segLastD x.1
    then x.1 :: openSegsFor rest fid
    else openSegsFor rest fid

/-- An open point list has at least two points (a `[]` or one-point list
has equal first and last point). -/
theorem two_le_length_of_open {s : Seg} (h : segHeadD s ≠ segLastD s) :
    2 ≤ s.length := by
  cases s with
  | nil => exact absurd rfl h
  | cons x t =>
    cases t with
    | nil => exact absurd rfl h
    | cons y u => simp

theorem shapesFind_shapesAdd_self (m : ShapeMap) (f : FillId) (s : Seg) :
    shapesFind (shapesAdd m f s) f = shapesFind m f ++ [s] := by
  induction m with
  | nil => simp [shapesAdd, shapesFind]
  | cons kv rest ih =>
    obtain ⟨f0, ss⟩ := kv
    by_cases hf : f0 = f
    · subst hf
      simp [shapesAdd, shapesFind]
    · simp only [shapesAdd, if_neg hf, shapesFind, ih]

theorem shapesFind_shapesAdd_other (m : ShapeMap) (f : FillId) (s : Seg)
    (f' : FillId) (h : f' ≠ f) :
    shapesFind (shapesAdd m f s) f' = shapesFind m f' := by
  have hfne : f ≠ f' := fun hh => h hh.symm
  induction m with
  | nil =>
    simp only [shapesAdd, shapesFind]
    rw [if_neg hfne]
  | cons kv rest ih =>
    obtain ⟨f0, ss⟩ := kv
    by_cases hf : f0 = f
    · subst hf
      simp only [shapesAdd, if_pos rfl, shapesFind]
      rw [if_neg hfne, if_neg hfne]
    · simp only [shapesAdd, if_neg hf, shapesFind]
      by_cases hf' : f0 = f'
      · rw [if_pos hf', if_pos hf']
      · rw [if_neg hf', if_neg hf', ih]

theorem shapesFind_shapesAddList_self (m : ShapeMap) (f : FillId)
    (new : List Seg) :
    shapesFind (shapesAddList m f new) f = shapesFind m f ++ new := by
  induction m with
  | nil => simp [shapesAddList, shapesFind]
  | cons kv rest ih =>
    obtain ⟨f0, ss⟩ := kv
    by_cases hf : f0 = f
    · subst hf
      simp [shapesAddList, shapesFind]
    · simp only [shapesAddList, if_neg hf, shapesFind, ih]

theorem shapesFind_shapesAddList_other (m : ShapeMap) (f : FillId)
    (new : List Seg) (f' : FillId) (h : f' ≠ f) :
    shapesFind (shapesAddList m f new) f' = shapesFind m f' := by
  have hfne : f ≠ f' := fun hh => h hh.symm
  induction m with
  | nil =>
    simp only [shapesAddList, shapesFind]
    rw [if_neg hfne]
  | cons kv rest ih =>
    obtain ⟨f0, ss⟩ := kv
    by_cases hf : f0 = f
    · subst hf
      simp only [shapesAddList, if_pos rfl, shapesFind]
      rw [if_neg hfne, if_neg hfne]
    · simp only [shapesAddList, if_neg hf, shapesFind]
      by_cases hf' : f0 = f'
      · rw [if_pos hf', if_pos hf']
      · rw [if_neg hf', if_neg hf', ih]

theorem graphsFind_graphsAdd_self (gs : FillGraphs) (f : FillId)
    (k : Vertex) (s : Seg) :
    graphsFind (graphsAdd gs f k s) f = graphAdd (graphsFind gs f) k s := by
  induction gs with
  | nil => simp [graphsAdd, graphsFind]
  | cons kv rest ih =>
    obtain ⟨f0, fg⟩ := kv
    by_cases hf : f0 = f
    · subst hf
      simp [graphsAdd, graphsFind]
    · simp only [graphsAdd, if_neg hf, graphsFind, ih]

theorem graphsFind_graphsAdd_other (gs : FillGraphs) (f : FillId)
    (k : Vertex) (s : Seg) (f' : FillId) (h : f' ≠ f) :
    graphsFind (graphsAdd gs f k s) f' = graphsFind gs f' := by
  have hfne : f ≠ f' := fun hh => h hh.symm
  induction gs with
  | nil =>
    simp only [graphsAdd, graphsFind]
    rw [if_neg hfne]
  | cons kv rest ih =>
    obtain ⟨f0, fg⟩ := kv
    by_cases hf : f0 = f
    · subst hf
      simp only [graphsAdd, if_pos rfl, graphsFind]
      rw [if_neg hfne, if_neg hfne]
    · simp only [graphsAdd, if_neg hf, graphsFind]
      by_cases hf' : f0 = f'
      · rw [if_pos hf', if_pos hf']
      · rw [if_neg hf', if_neg hf', ih]

/-- A fill id that is bound to no graph reads as the empty graph. -/
theorem graphsFind_eq_nil_of_not_mem {gs : FillGraphs} {fid : FillId}
    (h : fid ∉ gs.map Prod.fst) : graphsFind gs fid = [] := by
  induction gs with
  | nil => rfl
  | cons kv rest ih =>
    obtain ⟨f0, fg⟩ := kv
    simp only [List.map_cons, List.mem_cons] at h
    push_neg at h
    simp only [graphsFind, if_neg (fun hh : f0 = fid => h.1 hh.symm)]
    exact ih h.2

/-- With unique fill keys, the graph found at a bound key is its binding. -/
theorem graphsFind_eq_of_mem {gs : FillGraphs}
    (hnd : (gs.map Prod.fst).Nodup) {fid : FillId} {fg : Graph}
    (h : (fid, fg) ∈ gs) : graphsFind gs fid = fg := by
  induction gs with
  | nil => simp at h
  | cons kv rest ih =>
    obtain ⟨f0, b⟩ := kv
    simp only [List.map_cons, List.nodup_cons] at hnd
    rcases List.mem_cons.mp h with h | h
    · obtain ⟨rfl, rfl⟩ : f0 = fid ∧ b = fg := by
        cases h
        exact ⟨rfl, rfl⟩
      simp [graphsFind]
    · have hk : f0 ≠ fid := by
        intro hk
        subst hk
        exact hnd.1 (List.mem_map.mpr ⟨(f0, fg), h, rfl⟩)
      simp only [graphsFind, if_neg hk]
      exact ih hnd.2 h

/-- Appending to a bucket appends one segment to the graph's multiset. -/
theorem graphSegs_graphAdd (fg : Graph) (k : Vertex) (s : Seg) :
    graphSegs (graphAdd fg k s) = graphSegs fg + {s} := by
  have hx := graphSegs_graphSet fg k (graphFind fg k ++ [s])
  have hco : ((graphFind fg k ++ [s] : List Seg) : Multiset Seg) =
      ((graphFind fg k : List Seg) : Multiset Seg) + {s} := rfl
  rw [hco, ← add_assoc, add_right_comm] at hx
  exact add_right_cancel hx

/-- Appending a proper segment at its own start point preserves
well-formedness. -/
theorem GraphWF_graphAdd {fg : Graph} (hwf : GraphWF fg) {s : Seg}
    (hh : segHeadD s ≠ segLastD s) :
    GraphWF (graphAdd fg (segHeadD s) s) := by
  refine GraphWF_graphSet hwf (fun t ht => ?_)
  rcases List.mem_append.mp ht with ht | ht
  · exact graphFind_props hwf ht
  · have hts : t = s := by simpa using ht
    subst hts
    exact ⟨rfl, two_le_length_of_open hh, fun hc => hh hc.symm⟩

theorem mem_keys_graphsAdd {gs : FillGraphs} {f : FillId} {k : Vertex}
    {s : Seg} {f0 : FillId}
    (h : f0 ∈ (graphsAdd gs f k s).map Prod.fst) :
    f0 ∈ gs.map Prod.fst ∨ f0 = f := by
  induction gs with
  | nil =>
    simp only [graphsAdd, List.map_cons, List.map_nil, List.mem_cons,
      List.not_mem_nil, or_false] at h
    exact Or.inr h
  | cons kv rest ih =>
    obtain ⟨f1, fg⟩ := kv
    by_cases hf : f1 = f
    · subst hf
      simp only [graphsAdd, eq_self_iff_true, if_true, List.map_cons,
        List.mem_cons] at h
      rcases h with h | h
      · exact Or.inr h
      · exact Or.inl (by simp [h])
    · simp only [graphsAdd, if_neg hf, List.map_cons, List.mem_cons] at h
      rcases h with h | h
      · exact Or.inl (by simp [h])
      · rcases ih h with h' | h'
        · exact Or.inl (by simp [h'])
        · exact Or.inr h'

/-- Adding a segment to one fill's graph keeps the fill key list nodup. -/
theorem nodup_keys_graphsAdd {gs : FillGraphs} (f : FillId) (k : Vertex)
    (s : Seg) (h : (gs.map Prod.fst).Nodup) :
    ((graphsAdd gs f k s).map Prod.fst).Nodup := by
  induction gs with
  | nil => simp [graphsAdd]
  | cons kv rest ih =>
    obtain ⟨f0, fg⟩ := kv
    simp only [List.map_cons, List.nodup_cons] at h
    by_cases hf : f0 = f
    · subst hf
      simp only [graphsAdd, eq_self_iff_true, if_true, List.map_cons,
        List.nodup_cons]
      exact h
    · simp only [graphsAdd, if_neg hf, List.map_cons, List.nodup_cons]
      refine ⟨fun hmem => ?_, ih h.2⟩
      rcases mem_keys_graphsAdd hmem with h' | h'
      · exact h.1 h'
      · exact hf h'


/-- One step of the intake loop (the fold body of `intake`). -/
def intakeStep (acc : ShapeMap × FillGraphs) (x : Seg × FillId) :
    ShapeMap × FillGraphs :=
  if segHeadD x.1 = segLastD x.1 then (shapesAdd acc.1 x.2 x.1, acc.2)
  else (acc.1, graphsAdd acc.2 x.2 (segHeadD x.1) x.1)

theorem intake_eq (pls : List (Seg × FillId)) :
    intake pls = pls.foldl intakeStep ([], []) := rfl

/-- Running the intake loop: closed point lists are appended to the
fill's shape list in order; open ones land in the fill's graph, whose
segment multiset grows by exactly the open point lists of that fill,
keeping every fill graph well-formed and the fill key list nodup. -/
theorem intake_fold_spec :
    ∀ (pls : List (Seg × FillId)) (m : ShapeMap) (gs : FillGraphs),
      (gs.map Prod.fst).Nodup →
      (∀ fid, GraphWF (graphsFind gs fid)) →
      ((pls.foldl intakeStep (m, gs)).2.map Prod.fst).Nodup ∧
      (∀ fid, GraphWF (graphsFind (pls.foldl intakeStep (m, gs)).2 fid)) ∧
      (∀ fid, shapesFind (pls.foldl intakeStep (m, gs)).1 fid =
        shapesFind m fid ++ closedSegsFor pls fid) ∧
      (∀ fid, graphSegs (graphsFind (pls.foldl intakeStep (m, gs)).2 fid) =
        graphSegs (graphsFind gs fid) +
          (openSegsFor pls fid : Multiset Seg)) := by
  intro pls
  induction pls with
  | nil =>
    intro m gs hnd hwf
    refine ⟨hnd, hwf, ?_, ?_⟩
    · intro fid
      simp [closedSegsFor]
    · intro fid
      simp [openSegsFor]
  | cons x pls ih =>
    intro m gs hnd hwf
    simp only [List.foldl_cons]
    by_cases hcl : segHeadD x.1 = segLastD x.1
    · have hstep : intakeStep (m, gs) x = (shapesAdd m x.2 x.1, gs) := by
        simp [intakeStep, hcl]
      rw [hstep]
      obtain ⟨ih1, ih2, ih3, ih4⟩ := ih (shapesAdd m x.2 x.1) gs hnd hwf
      refine ⟨ih1, ih2, ?_, ?_⟩
      · intro fid
        rw [ih3 fid]
        by_cases hf : x.2 = fid
        · rw [hf, shapesFind_shapesAdd_self]
          simp only [closedSegsFor, if_pos (And.intro hf hcl)]
          rw [List.append_assoc, List.singleton_append]
        · rw [shapesFind_shapesAdd_other m x.2 x.1 fid
            (fun hh => hf hh.symm)]
          simp only [closedSegsFor,
            if_neg (fun hand : x.2 = fid ∧ segHeadD x.1 = segLastD x.1 => hf hand.1)]
      · intro fid
        rw [ih4 fid]
        have hop : openSegsFor (x :: pls) fid = openSegsFor pls fid := by
          simp only [openSegsFor,
            if_neg (fun hand : x.2 = fid ∧ segHeadD x.1 ≠ segLastD x.1 => hand.2 hcl)]
        rw [hop]
    · have hstep : intakeStep (m, gs) x =
          (m, graphsAdd gs x.2 (segHeadD x.1) x.1) := by
        simp [intakeStep, hcl]
      rw [hstep]
      have hnd' : ((graphsAdd gs x.2 (segHeadD x.1) x.1).map Prod.fst).Nodup :=
        nodup_keys_graphsAdd x.2 (segHeadD x.1) x.1 hnd
      have hwf' : ∀ fid,
          GraphWF (graphsFind (graphsAdd gs x.2 (segHeadD x.1) x.1) fid) := by
        intro fid
        by_cases hf : x.2 = fid
        · subst hf
          rw [graphsFind_graphsAdd_self]
          exact GraphWF_graphAdd (hwf x.2) hcl
        · rw [graphsFind_graphsAdd_other gs x.2 _ x.1 fid
            (fun hh => hf hh.symm)]
          exact hwf fid
      obtain ⟨ih1, ih2, ih3, ih4⟩ :=
        ih m (graphsAdd gs x.2 (segHeadD x.1) x.1) hnd' hwf'
      refine ⟨ih1, ih2, ?_, ?_⟩
      · intro fid
        rw [ih3 fid]
        have hclf : closedSegsFor (x :: pls) fid = closedSegsFor pls fid := by
          simp only [closedSegsFor,
            if_neg (fun hand : x.2 = fid ∧ segHeadD x.1 = segLastD x.1 => hcl hand.2)]
        rw [hclf]
      · intro fid
        rw [ih4 fid]
        by_cases hf : x.2 = fid
        · rw [hf, graphsFind_graphsAdd_self, graphSegs_graphAdd]
          simp only [openSegsFor, if_pos (And.intro hf hcl)]
          have hco : ((x.1 :: openSegsFor pls fid : List Seg) : Multiset Seg) =
              {x.1} + (openSegsFor pls fid : Multiset Seg) := by
            rw [← Multiset.cons_coe, Multiset.singleton_add]
          rw [hco, add_assoc]
        · rw [graphsFind_graphsAdd_other gs x.2 _ x.1 fid
            (fun hh => hf hh.symm)]
          have hop : openSegsFor (x :: pls) fid = openSegsFor pls fid := by
            simp only [openSegsFor,
              if_neg (fun hand : x.2 = fid ∧ segHeadD x.1 ≠ segLastD x.1 =>
                hf hand.1)]
          rw [hop]


/-- The `for fill_id, fill_graph in graph.items():` loop: when every fill
graph is balanced and well-formed, assembly succeeds and appends, per
fill, only closed rings whose total span is that fill graph's span. -/
theorem assembleAll_spec :
    ∀ (gs : FillGraphs) (m : ShapeMap),
      (gs.map Prod.fst).Nodup →
      (∀ fg ∈ gs, GraphWF fg.2 ∧ Balanced fg.2) →
      ∃ out, assembleAll m gs = .ok out ∧
        ∀ fid, ∃ rings,
          shapesFind out fid = shapesFind m fid ++ rings ∧
          (∀ r ∈ rings, segHeadD r = segLastD r ∧ 2 ≤ r.length) ∧
          (rings.map segSpan).sum =
            mspan (graphSegs (graphsFind gs fid)) ∧
          ∃ chs : List (List Seg), rings = chs.map joinElide ∧
            (∀ ch ∈ chs, ch ≠ [] ∧ (∃ o, IsChain o ch o) ∧
              ∀ t ∈ ch, 2 ≤ t.length) ∧
            (chs.flatten : Multiset Seg) =
              graphSegs (graphsFind gs fid) := by
  intro gs
  induction gs with
  | nil =>
    intro m hnd hprops
    refine ⟨m, rfl, fun fid => ⟨[], by simp, by simp, ?_, [], rfl,
      by simp, ?_⟩⟩
    · show 0 = mspan (graphSegs (graphsFind ([] : FillGraphs) fid))
      simp [graphsFind, graphSegs, graphSegList, mspan]
    · rfl
  | cons kv rest ih =>
    intro m hnd hprops
    obtain ⟨fid0, g0⟩ := kv
    have hp0 := hprops (fid0, g0) (by simp)
    obtain ⟨rings0, gend, hfill, hrings0, hspan0, chs0, hchs0eq, hchs0props,
      hchs0ms⟩ := assembleFill_spec g0 hp0.1 hp0.2
    simp only [List.map_cons, List.nodup_cons] at hnd
    obtain ⟨out, hall, hout⟩ := ih (shapesAddList m fid0 rings0) hnd.2
      (fun fg hfg => hprops fg (List.mem_cons_of_mem _ hfg))
    refine ⟨out, ?_, ?_⟩
    · show assembleAll m ((fid0, g0) :: rest) = .ok out
      rw [assembleAll, hfill]
      exact hall
    · intro fid
      obtain ⟨rings1, hsf, hr1, hs1, chs1, hchs1eq, hchs1props, hchs1ms⟩ :=
        hout fid
      by_cases hf : fid = fid0
      · subst hf
        have hnil : graphsFind rest fid = [] :=
          graphsFind_eq_nil_of_not_mem hnd.1
        refine ⟨rings0 ++ rings1, ?_, ?_, ?_, ?_⟩
        · rw [hsf, shapesFind_shapesAddList_self, List.append_assoc]
        · intro r hr
          rcases List.mem_append.mp hr with hr | hr
          · exact hrings0 r hr
          · exact hr1 r hr
        · rw [hnil] at hs1
          simp only [List.map_append, List.sum_append]
          have hz : mspan (graphSegs ([] : Graph)) = 0 := by
            simp [graphSegs, graphSegList, mspan]
          rw [hz] at hs1
          simp only [graphsFind, eq_self_iff_true, if_true]
          omega
        · refine ⟨chs0 ++ chs1, ?_, ?_, ?_⟩
          · rw [List.map_append, hchs0eq, hchs1eq]
          · intro ch hch
            rcases List.mem_append.mp hch with hch | hch
            · exact hchs0props ch hch
            · exact hchs1props ch hch
          · rw [hnil] at hchs1ms
            have hz0 : graphSegs ([] : Graph) = 0 := rfl
            rw [hz0] at hchs1ms
            rw [List.flatten_append]
            have hco : ((chs0.flatten ++ chs1.flatten : List Seg) :
                  Multiset Seg) =
                (chs0.flatten : Multiset Seg) +
                  (chs1.flatten : Multiset Seg) := rfl
            rw [hco, hchs1ms, add_zero, ← hchs0ms]
            simp only [graphsFind, eq_self_iff_true, if_true]
      · have hfind : graphsFind ((fid0, g0) :: rest) fid =
            graphsFind rest fid := by
          simp only [graphsFind, if_neg (fun hh : fid0 = fid => hf hh.symm)]
        refine ⟨rings1, ?_, hr1, ?_, chs1, hchs1eq, hchs1props, ?_⟩
        · rw [hsf, shapesFind_shapesAddList_other m fid0 rings0 fid hf]
        · rw [hs1, hfind]
        · rw [hchs1ms, hfind]


/-- Every directly-emitted (already closed) point list is closed. -/
theorem mem_closedSegsFor :
    ∀ (pls : List (Seg × FillId)) (fid : FillId) (r : Seg),
      r ∈ closedSegsFor pls fid → segHeadD r = segLastD r := by
  intro pls fid
  induction pls with
  | nil =>
    intro r hr
    simp [closedSegsFor] at hr
  | cons x rest ih =>
    intro r hr
    by_cases hx : x.2 = fid ∧ segHeadD x.1 = segLastD x.1
    · simp only [closedSegsFor] at hr
      rw [if_pos hx] at hr
      rcases List.mem_cons.mp hr with rfl | hr
      · exact hx.2
      · exact ih r hr
    · simp only [closedSegsFor] at hr
      rw [if_neg hx] at hr
      exact ih r hr

/-- Every directly-emitted point list is an input point list of its
fill. -/
theorem mem_pls_of_mem_closedSegsFor :
    ∀ (pls : List (Seg × FillId)) (fid : FillId) (r : Seg),
      r ∈ closedSegsFor pls fid → (r, fid) ∈ pls := by
  intro pls fid
  induction pls with
  | nil =>
    intro r hr
    simp [closedSegsFor] at hr
  | cons x rest ih =>
    intro r hr
    by_cases hx : x.2 = fid ∧ segHeadD x.1 = segLastD x.1
    · simp only [closedSegsFor] at hr
      rw [if_pos hx] at hr
      rcases List.mem_cons.mp hr with rfl | hr
      · have hxx : (x.1, fid) = x := by
          rw [← hx.1]
        rw [hxx]
        exact List.mem_cons_self _ _
      · exact List.mem_cons_of_mem _ (ih r hr)
    · simp only [closedSegsFor] at hr
      rw [if_neg hx] at hr
      exact List.mem_cons_of_mem _ (ih r hr)

/-- Master success theorem: on balanced input of nonempty point lists the
assembler succeeds; per fill the output is the already-closed inputs
followed by the assembled rings; every output point list is closed and
nonempty; the rings are exactly the elided joins (`joinElide`) of chains
of segments that use the fill's open input point lists exactly once
altogether; and the rings' total span equals the open inputs' total
span. -/
theorem point_lists_to_shapes_spec
    (pls : List (Seg × FillId))
    (hne : ∀ p ∈ pls, p.1 ≠ [])
    (hbal : ∀ fid v,
      (openSegsFor pls fid).countP (fun s => segHeadD s = v) =
        (openSegsFor pls fid).countP (fun s => segLastD s = v)) :
    ∃ out, point_lists_to_shapes pls = .ok out ∧
      ∀ fid,
        (∀ r ∈ shapesFind out fid, segHeadD r = segLastD r ∧ r ≠ []) ∧
        ∃ rings, shapesFind out fid = closedSegsFor pls fid ++ rings ∧
          (∃ chs : List (List Seg), rings = chs.map joinElide ∧
            (∀ ch ∈ chs, ch ≠ [] ∧ (∃ o, IsChain o ch o) ∧
              ∀ t ∈ ch, 2 ≤ t.length) ∧
            (chs.flatten : Multiset Seg) =
              (openSegsFor pls fid : Multiset Seg)) ∧
          (rings.map segSpan).sum =
            ((openSegsFor pls fid).map segSpan).sum := by
  obtain ⟨hnd, hwfs, hshapes, hsegs⟩ := intake_fold_spec pls [] []
    (by simp)
    (fun fid => by
      have h0 : graphsFind ([] : FillGraphs) fid = [] := rfl
      rw [h0]
      exact ⟨List.nodup_nil, by intro k segs h s hs; simp at h⟩)
  have hfold2 : ∀ fid,
      graphSegs (graphsFind (pls.foldl intakeStep ([], [])).2 fid) =
        (openSegsFor pls fid : Multiset Seg) := by
    intro fid
    rw [hsegs fid]
    have h0 : graphSegs (graphsFind ([] : FillGraphs) fid) = 0 := rfl
    rw [h0, zero_add]
  have hbalg : ∀ fid,
      Balanced (graphsFind (pls.foldl intakeStep ([], [])).2 fid) := by
    intro fid v
    rw [graphOut_eq_countP, graphIn_eq_countP, hfold2 fid,
      Multiset.coe_countP, Multiset.coe_countP]
    exact hbal fid v
  obtain ⟨out, hall, hout⟩ := assembleAll_spec
    (pls.foldl intakeStep ([], [])).2 (pls.foldl intakeStep ([], [])).1 hnd
    (fun fg hfg => by
      have hfind : graphsFind (pls.foldl intakeStep ([], [])).2 fg.1 = fg.2 :=
        graphsFind_eq_of_mem hnd (by
          obtain ⟨a, b⟩ := fg
          exact hfg)
      constructor
      · rw [← hfind]
        exact hwfs fg.1
      · rw [← hfind]
        exact hbalg fg.1)
  refine ⟨out, hall, ?_⟩
  intro fid
  obtain ⟨rings, hsf, hr, hs, chs, hchseq, hchsprops, hchsms⟩ := hout fid
  have hclosed' : shapesFind (pls.foldl intakeStep ([], [])).1 fid =
      closedSegsFor pls fid := by
    rw [hshapes fid]
    rfl
  constructor
  · intro r hrm
    rw [hsf, hclosed'] at hrm
    rcases List.mem_append.mp hrm with hrm | hrm
    · refine ⟨mem_closedSegsFor pls fid r hrm, ?_⟩
      exact hne (r, fid) (mem_pls_of_mem_closedSegsFor pls fid r hrm)
    · refine ⟨(hr r hrm).1, ?_⟩
      intro h0
      have hlen := (hr r hrm).2
      rw [h0] at hlen
      simp at hlen
  · refine ⟨rings, ?_, ?_, ?_⟩
    · rw [hsf, hclosed']
    · refine ⟨chs, hchseq, hchsprops, ?_⟩
      rw [hchsms, hfold2 fid]
    · rw [hs, hfold2 fid, mspan_coe]


/-- Concrete points for the assembler examples. -/
def pA : Vertex := .plain (0, 0)

def pB : Vertex := .plain (1, 0)

/-- Two open two-point segments forming one ring: `A→B` and `B→A`. -/
def c1Pls : List (Seg × FillId) := [([pA, pB], 0), ([pB, pA], 0)]

theorem c1_intake : intake c1Pls =
    ([], [(0, [(pA, [[pA, pB]]), (pB, [[pB, pA]])])]) := rfl

theorem c1_walk : walkAux pB {pA, pB} pA
    [(pA, ([] : List Seg)), (pB, [[pB, pA]])] 0 =
    some ([pB, pA], [(pA, []), (pB, [])]) := by
  rw [walkAux]
  norm_num [graphFind, segLastD, graphDeleteAt, graphSet, Prod.ext_iff,
    pA, pB]

theorem c1_atA : assembleAtOrigin pA
    [(pA, [[pA, pB]]), (pB, [[pB, pA]])] [] =
    .ok ([[pA, pB, pA]], [(pA, []), (pB, [])]) := by
  have h1 : graphFind [(pA, [[pA, pB]]), (pB, [[pB, pA]])] pA =
      [[pA, pB]] := rfl
  rw [assembleAtOrigin_cons_some pA _ [] [pA, pB] [] [pB, pA]
    [(pA, []), (pB, [])] h1 c1_walk]
  exact assembleAtOrigin_nil pA _ _ rfl

theorem c1_atB : assembleAtOrigin pB
    [(pA, ([] : List Seg)), (pB, [])] [[pA, pB, pA]] =
    .ok ([[pA, pB, pA]], [(pA, []), (pB, [])]) :=
  assembleAtOrigin_nil pB _ _ rfl

theorem c1_eval : point_lists_to_shapes c1Pls =
    .ok [(0, [[pA, pB, pA]])] := by
  have hkeys : assembleKeys [pA, pB]
      [(pA, [[pA, pB]]), (pB, [[pB, pA]])] [] =
      .ok ([[pA, pB, pA]], [(pA, []), (pB, [])]) := by
    rw [assembleKeys_cons_ok pA [pB] _ [] _ _ c1_atA,
      assembleKeys_cons_ok pB [] _ _ _ _ c1_atB]
    rfl
  have hfill : assembleFill [(pA, [[pA, pB]]), (pB, [[pB, pA]])] =
      .ok ([[pA, pB, pA]], [(pA, []), (pB, [])]) := hkeys
  show assembleAll [] [(0, [(pA, [[pA, pB]]), (pB, [[pB, pA]])])] =
    .ok [(0, [[pA, pB, pA]])]
  simp only [assembleAll]
  rw [hfill]
  rfl



/-- The two-segment input is balanced: at both points, one segment
starts and one ends. -/
theorem c1_balance :
    ∀ fid v,
      (openSegsFor c1Pls fid).countP (fun s => segHeadD s = v) =
        (openSegsFor c1Pls fid).countP (fun s => segLastD s = v) := by
  intro fid v
  by_cases hf : (0 : ℕ) = fid
  · subst hf
    have hopen : openSegsFor c1Pls 0 = [[pA, pB], [pB, pA]] := rfl
    rw [hopen]
    have e1 : segHeadD [pA, pB] = pA := rfl
    have e2 : segLastD [pA, pB] = pB := rfl
    have e3 : segHeadD [pB, pA] = pB := rfl
    have e4 : segLastD [pB, pA] = pA := rfl
    simp only [List.countP_cons, List.countP_nil, e1, e2, e3, e4]
    omega
  · have hopen : openSegsFor c1Pls fid = [] := by
      simp only [c1Pls, openSegsFor]
      rw [if_neg (fun hand => hf hand.1), if_neg (fun hand => hf hand.1)]
    rw [hopen]
    rfl


/-! ## Fragment identifiers (src/xfl2svg/color_effect.py `ColorEffect.id`,
src/xfl2svg/svg_renderer.py mask ids and `_handle_domshape`) -/

/-- The value of `ColorEffect.id`, i.e. the string
`f"Filter_{hash(self) & 0xFFFF_FFFF:08x}"`, represented structurally: the
fixed `"Filter_"` prefix plus the low 32 bits of the hash, which the
f-string prints as 8 fixed-width hex digits (an injective rendering of
numbers below `2^32`, so equality of `FilterId`s coincides with equality
of the printed strings). -/
structure FilterId where
  prefixTag : String
  hashLow32 : ℕ
deriving DecidableEq

/-- `ColorEffect.id`: derived from `hash(self)`. CPython's `hash` of a
frozen dataclass over tuples of numbers is a deterministic pure function
of the field values (number hashing is not seed-randomized); it is not
part of this repository, so it is abstracted as the `pyHash` argument. -/
def ColorEffect.renderId (pyHash : Option (RGBA × RGBA) → ℕ)
    (e : ColorEffect) : FilterId :=
  ⟨"Filter_", pyHash e.effect % 2 ^ 32⟩

/-- The filter reference attached to the fill `<use>` by
`_handle_domshape`: a filter is attached (and its `<filter>` added to the
defs) iff the render is not inside a mask and the color effect is not the
identity. -/
def fillUseFilter (pyHash : Option (RGBA × RGBA) → ℕ) (insideMask : Bool)
    (ce : ColorEffect) : Option FilterId :=
  if ¬insideMask ∧ ¬ce.isIdentity then some (ce.renderId pyHash) else none

/-- The mutable renderer state relevant to mask ids: `self.mask_num`,
initialized to 1 in `SvgRenderer.__init__` and incremented at each mask
start in `_render_timeline`. -/
structure RendererState where
  maskNum : ℕ
deriving DecidableEq

/-- Mask-id allocation in `_render_timeline`:
`mask_id = "Mask_" + str(self.mask_num); self.mask_num += 1`. The id
depends only on the counter, not on the mask's content. -/
def allocMaskId (st : RendererState) : String × RendererState :=
  ("Mask_" ++ toString st.maskNum, ⟨st.maskNum + 1⟩)

/-! ## get_matrix (src/xfl2svg/util.py) and the transform wrapper of
`_render_element` (src/xfl2svg/svg_renderer.py) -/

/-- The attributes of an XFL `<Matrix>` element (`None` = absent). -/
structure XflMatrixAttrib where
  a : Option String := none
  b : Option String := none
  c : Option String := none
  d : Option String := none
  tx : Option String := none
  ty : Option String := none
deriving DecidableEq

/-- Python's `x or default` for an optional attribute string: `None` and
the empty string are falsy and replaced by the default. -/
def pyOr (o : Option String) (dflt : String) : String :=
  match o with
  | none => dflt
  | some s => if s = "" then dflt else s

/-- `IDENTITY_MATRIX` from util.py. -/
def IDENTITY_MATRIX : List String := ["1", "0", "0", "1", "0", "0"]

/-- `get_matrix`: the element's `<matrix>` first child is either present
(carrying a `<Matrix>` whose attributes default component-wise to the
identity) or absent, in which case `IDENTITY_MATRIX` is returned. The
`Option` result type mirrors the `matrix is not None` test in
`_render_element`; as written the function never returns `none`. -/
def get_matrix (m : Option XflMatrixAttrib) : Option (List String) :=
  match m with
  | some mat =>
    some [pyOr mat.a "1", pyOr mat.b "0", pyOr mat.c "0",
          pyOr mat.d "1", pyOr mat.tx "0", pyOr mat.ty "0"]
  | none => some IDENTITY_MATRIX

/-- An element as seen by `_render_element`, restricted to what the
transform-wrapping logic inspects: its tag kind, its optional `<matrix>`
child, and (for groups) its children. The rendered body of a shape or
symbol instance is abstracted as an opaque node. -/
inductive RElem where
  | domShape (content : String) (matrixChild : Option XflMatrixAttrib)
  | domSymbolInstance (content : String) (matrixChild : Option XflMatrixAttrib)
  | domGroup (children : List RElem) (matrixChild : Option XflMatrixAttrib)

/-- A rendered SVG body node: a `<g transform="matrix(...)">` container or
an opaque rendered body. -/
inductive SvgBody where
  | transformG (matrix : List String) (children : List SvgBody)
  | node (content : String)

/-- The tail of `_render_element`: every non-`DOMGroup` element has its
body wrapped in a transform `<g>` when `get_matrix` returns a non-`None`
value. -/
def wrapTransform (mc : Option XflMatrixAttrib) (body : List SvgBody) :
    List SvgBody :=
  match get_matrix mc with
  | none => body
  | some m => [.transformG m body]

mutual
/-- `_render_element`, restricted to the body and transform-wrapping
behavior: shapes and symbol instances produce their (abstracted) body and
are wrapped per `wrapTransform`; a `DOMGroup` flattens its children in
order and is never wrapped (its matrix is ignored). -/
def renderElementBody : RElem → List SvgBody
  | .domShape c mc => wrapTransform mc [.node c]
  | .domSymbolInstance c mc => wrapTransform mc [.node c]
  | .domGroup children _ => renderElementList children

/-- The child loop of the `DOMGroup` branch of `_render_element`:
children's bodies are concatenated in order. -/
def renderElementList : List RElem → List SvgBody
  | [] => []
  | e :: es => renderElementBody e ++ renderElementList es
end

/-! ## Helper lemmas -/

theorem hexVal_foldl_init (init : ℕ) (l : List (Fin 16)) :
    l.foldl (fun acc d => 16 * acc + d.val) init =
      init * 16 ^ l.length + hexVal l := by
  induction l generalizing init with
  | nil => simp [hexVal]
  | cons d rest ih =>
    simp only [List.foldl_cons, List.length_cons, hexVal]
    rw [ih, ih (16 * 0 + d.val)]
    ring

theorem hexVal_append (a b : List (Fin 16)) :
    hexVal (a ++ b) = hexVal a * 16 ^ b.length + hexVal b := by
  unfold hexVal
  rw [List.foldl_append, hexVal_foldl_init]
  rfl

theorem hexVal_replicate_zero (n : ℕ) :
    hexVal (List.replicate n (0 : Fin 16)) = 0 := by
  induction n with
  | zero => rfl
  | succ k ih =>
    rw [List.replicate_succ]
    unfold hexVal at ih ⊢
    simpa [hexVal_foldl_init] using ih

theorem hexVal_padLeftZeros (n : ℕ) (l : List (Fin 16)) :
    hexVal (padLeftZeros n l) = hexVal l := by
  unfold padLeftZeros
  rw [hexVal_append, hexVal_replicate_zero]
  simp

/-- Any successful run of the segment-builder loop yields at least one more
segment than were already emitted: the in-progress point list is always
yielded at end of input. -/
theorem buildSegments_ok_length :
    ∀ toks prev cur acc L, buildSegments toks prev cur acc = .ok L →
      acc.length + 1 ≤ L.length := by
  intro toks prev cur acc L h
  induction toks, prev, cur, acc using buildSegments.induct generalizing L with
  | case1 x cur acc =>
      obtain rfl : acc ++ [cur] = L := by simpa [buildSegments] using h
      simp
  | case2 head x cur acc =>
      obtain rfl : acc ++ [cur] = L := by simpa [buildSegments] using h
      simp
  | case3 head lit x cur acc =>
      obtain rfl : acc ++ [cur] = L := by simpa [buildSegments] using h
      simp
  | case4 a b rest cur acc p ih =>
      simp [buildSegments] at h
      exact ih L h
  | case5 a b rest prev cur acc p hne ih =>
      simp only [buildSegments] at h
      rw [if_neg hne] at h
      have := ih L h
      simp only [List.length_append, List.length_cons] at this ⊢
      omega
  | case6 a b rest prev cur acc p ih =>
      simp only [buildSegments] at h
      exact ih L h
  | case7 t a b prev cur acc ht1 ht2 =>
      rcases t with _ | _ | _ | lit
      · exact absurd rfl ht1
      · exact absurd rfl ht2
      all_goals
        obtain rfl :
            acc ++ [cur ++ [Vertex.ctrl (parse_number a, parse_number b)]]
              = L := by
          simpa [buildSegments] using h
      all_goals simp
  | case8 t a b prev cur acc lit ht1 ht2 =>
      rcases t with _ | _ | _ | lit'
      · exact absurd rfl ht1
      · exact absurd rfl ht2
      all_goals
        obtain rfl :
            acc ++ [cur ++ [Vertex.ctrl (parse_number a, parse_number b)]]
              = L := by
          simpa [buildSegments] using h
      all_goals simp
  | case9 t a b prev cur acc p c d rest' q ht1 ht2 ih =>
      rcases t with _ | _ | _ | lit
      · exact absurd rfl ht1
      · exact absurd rfl ht2
      all_goals simp only [buildSegments] at h
      all_goals exact ih L h
  | case10 t a b rest prev cur acc ht1 ht2 hr1 hr2 hr3 =>
      rcases t with _ | _ | _ | lit
      · exact absurd rfl ht1
      · exact absurd rfl ht2
      all_goals
        rcases rest with _ | ⟨(_ | _ | _ | c), rest1⟩
        · exact absurd rfl hr1
        · simp [buildSegments] at h
        · simp [buildSegments] at h
        · simp [buildSegments] at h
        · rcases rest1 with _ | ⟨(_ | _ | _ | d), rest2⟩
          · exact absurd rfl (hr2 c)
          · simp [buildSegments] at h
          · simp [buildSegments] at h
          · simp [buildSegments] at h
          · exact absurd rfl (hr3 c d rest2)
  | case11 head tail x x1 x2 hr1 hr2 hr3 =>
      rcases tail with _ | ⟨(_ | _ | _ | c), rest1⟩
      · exact absurd rfl hr1
      · simp [buildSegments] at h
      · simp [buildSegments] at h
      · simp [buildSegments] at h
      · rcases rest1 with _ | ⟨(_ | _ | _ | d), rest2⟩
        · exact absurd rfl (hr2 c)
        · simp [buildSegments] at h
        · simp [buildSegments] at h
        · simp [buildSegments] at h
        · exact absurd rfl (hr3 c d rest2)

/-- The token list of the edge string `"!0 0|200 0|200 200|0 200!0 0"`
used by the spec's first testable property. -/
def c5EdgeTokens : List EdgeTok :=
  [.bang, .num (.dec 0), .num (.dec 0),
   .line, .num (.dec 200), .num (.dec 0),
   .line, .num (.dec 200), .num (.dec 200),
   .line, .num (.dec 0), .num (.dec 200),
   .bang, .num (.dec 0), .num (.dec 0)]

/-! ## Claim theorems -/

/-- C2: the loop-frame computation returns `first_frame` for mode
`"single frame"`; `first_frame + (offset mod loop_length)` with
`loop_length = last_frame - first_frame + 1` for mode `"loop"`, failing
with the invalid-loop error when `loop_length ≤ 0`; `min (first_frame +
offset) last_frame` for `"play once"`; and fails with the unknown-mode
error for any other mode. Concretely, `first=2, last=5, loop, offset=7`
gives 5; the same with `"play once"` gives 5; `first=5, last=2, loop`
fails with the invalid-loop error. -/
theorem C2_loop_frame :
    (∀ first last offset : ℤ,
      getLoopFrame first last "single frame" offset = .ok first) ∧
    (∀ first last offset : ℤ, 0 < last - first + 1 →
      getLoopFrame first last "loop" offset =
        .ok (first + offset % (last - first + 1))) ∧
    (∀ first last offset : ℤ, last - first + 1 ≤ 0 →
      getLoopFrame first last "loop" offset =
        .error (.invalidLoop (last - first + 1))) ∧
    (∀ first last offset : ℤ,
      getLoopFrame first last "play once" offset =
        .ok (min (first + offset) last)) ∧
    (∀ (first last offset : ℤ) (mode : String),
      mode ≠ "single frame" → mode ≠ "loop" → mode ≠ "play once" →
      getLoopFrame first last mode offset = .error (.unknownLoopType mode)) ∧
    getLoopFrame 2 5 "loop" 7 = .ok 5 ∧
    getLoopFrame 2 5 "play once" 7 = .ok 5 ∧
    getLoopFrame 5 2 "loop" 0 = .error (.invalidLoop (-2)) := by
  refine ⟨fun f l o => rfl, fun f l o h => ?_, fun f l o h => ?_,
    fun f l o => ?_, fun f l o mode h1 h2 h3 => ?_, rfl, rfl, rfl⟩
  · show (if l - f + 1 ≤ 0 then
        (Except.error (LoopError.invalidLoop (l - f + 1)) : Except LoopError ℤ)
      else .ok (f + o % (l - f + 1))) = .ok (f + o % (l - f + 1))
    rw [if_neg (by omega)]
  · show (if l - f + 1 ≤ 0 then
        (Except.error (LoopError.invalidLoop (l - f + 1)) : Except LoopError ℤ)
      else .ok (f + o % (l - f + 1))) = .error (.invalidLoop (l - f + 1))
    rw [if_pos h]
  · rfl
  · simp only [getLoopFrame, if_neg h1, if_neg h2, if_neg h3]

/-- C2 witness: the theorem applied at concrete inputs, discharging the
hypotheses. -/
theorem C2_loop_frame_witness :
    getLoopFrame 2 5 "loop" 7 = .ok (2 + 7 % (5 - 2 + 1)) ∧
    getLoopFrame 5 2 "loop" 3 = .error (.invalidLoop (2 - 5 + 1)) ∧
    getLoopFrame 0 9 "mystery" 1 = .error (.unknownLoopType "mystery") :=
  ⟨C2_loop_frame.2.1 2 5 7 (by decide),
   C2_loop_frame.2.2.1 5 2 3 (by decide),
   C2_loop_frame.2.2.2.2.1 0 9 1 "mystery" (by decide) (by decide) (by decide)⟩

/-- C3: composing with the identity effect (`None`) on either side returns
the other operand unchanged; composing two non-identity effects yields
multiplier `A.m * B.m` and offset `A.m * B.o + A.o` element-wise; and
composition is not commutative in general (concrete counterexample pair
provided). -/
theorem C3_color_effect_composition :
    (∀ X : ColorEffect,
      ColorEffect.compose ⟨none⟩ X = X ∧ X.compose ⟨none⟩ = X) ∧
    (∀ A B : ColorEffect, ∀ am ao bm bo : RGBA,
      A.isIdentity = false → B.isIdentity = false →
      A.effect = some (am, ao) → B.effect = some (bm, bo) →
      A.compose B =
        ⟨some
          (⟨am.r * bm.r, am.g * bm.g, am.b * bm.b, am.a * bm.a⟩,
           ⟨am.r * bo.r + ao.r, am.g * bo.g + ao.g,
            am.b * bo.b + ao.b, am.a * bo.a + ao.a⟩)⟩) ∧
    (ColorEffect.compose
        ⟨some (⟨1, 1, 1, 1⟩, ⟨1, 0, 0, 0⟩)⟩
        ⟨some (⟨2, 1, 1, 1⟩, ⟨0, 0, 0, 0⟩)⟩ ≠
      ColorEffect.compose
        ⟨some (⟨2, 1, 1, 1⟩, ⟨0, 0, 0, 0⟩)⟩
        ⟨some (⟨1, 1, 1, 1⟩, ⟨1, 0, 0, 0⟩)⟩) := by
  refine ⟨fun X => ⟨rfl, ?_⟩, fun A B am ao bm bo _ _ hA hB => ?_,
    by norm_num [ColorEffect.compose]⟩
  · obtain ⟨e⟩ := X
    cases e with
    | none => rfl
    | some mo => obtain ⟨m, o⟩ := mo; rfl
  · obtain ⟨eA⟩ := A
    obtain ⟨eB⟩ := B
    cases hA; cases hB; rfl

/-- C3 witness: the theorem applied at concrete effects. -/
theorem C3_color_effect_composition_witness :
    ColorEffect.compose
        ⟨some (⟨3, 1, 1, 1⟩, ⟨0, 0, 0, 0⟩)⟩
        ⟨some (⟨1, 0, 1, 1⟩, ⟨0, 2, 0, 0⟩)⟩ =
      ⟨some
        (⟨3 * 1, 1 * 0, 1 * 1, 1 * 1⟩,
         ⟨3 * 0 + 0, 1 * 2 + 0, 1 * 0 + 0, 1 * 0 + 0⟩)⟩ :=
  C3_color_effect_composition.2.1
    ⟨some (⟨3, 1, 1, 1⟩, ⟨0, 0, 0, 0⟩)⟩
    ⟨some (⟨1, 0, 1, 1⟩, ⟨0, 2, 0, 0⟩)⟩
    _ _ _ _ (by decide) (by decide) rfl rfl

/-- C4: `parse_number` maps a decimal literal to its value divided by 20,
and a hex literal `#H.h` (with `H` at most 6 digits and `h` 1 or 2
digits) to the signed 32-bit value of the 8 reassembled hex digits
(`H` left-padded to 6 digits, `h` right-padded to 2 digits) divided by
5120 = 256 * 20. -/
theorem C4_parse_number :
    (∀ q : ℚ, parse_number (.dec q) = q / 20) ∧
    (∀ H h : List (Fin 16), H.length ≤ 6 → 1 ≤ h.length → h.length ≤ 2 →
      parse_number (.hex H h) =
        (let V : ℕ := hexVal H * 2 ^ 8 + hexVal (padRightZeros 2 h)
         ((if 2 ^ 31 ≤ V then (V : ℤ) - 2 ^ 32 else (V : ℤ)) : ℚ) / 5120)) := by
  refine ⟨fun q => rfl, fun H h hH hh1 hh2 => ?_⟩
  have hlen : (padRightZeros 2 h).length = 2 := by
    simp only [padRightZeros, List.length_append, List.length_replicate]
    omega
  have hv : hexVal (padLeftZeros 6 H ++ padRightZeros 2 h) =
      hexVal H * 2 ^ 8 + hexVal (padRightZeros 2 h) := by
    rw [hexVal_append, hexVal_padLeftZeros, hlen]
    norm_num
  simp only [parse_number, hv]
  rw [div_div]
  norm_num

/-- C4 witness: the theorem applied to the literal `#A.8`
(`0x00000A80 = 2688`, and `2688 / 5120 = 21/40 = 0.525`). -/
theorem C4_parse_number_witness :
    parse_number (.hex [(10 : Fin 16)] [(8 : Fin 16)]) = 21 / 40 := by
  rw [C4_parse_number.2 [(10 : Fin 16)] [(8 : Fin 16)]
      (by decide) (by decide) (by decide)]
  norm_num [hexVal, padRightZeros, List.replicate,
    show ((10 : Fin 16) : ℕ) = 10 from rfl,
    show ((8 : Fin 16) : ℕ) = 8 from rfl]

/-- C9: solid-stroke resolution defaults the cap to round and maps
`"none"` to a butt cap, defaults the join to round, defaults the width to
1 with `"hairline"` overriding it to the fixed thin value 0.05, and for
miter joins emits a miter limit defaulting to 5 when absent. -/
theorem C9_stroke_style :
    (∀ s : SolidStrokeAttrib, s.caps = none →
      (parse_stroke_style s).strokeLinecap = "round") ∧
    (∀ s : SolidStrokeAttrib, s.caps = some "none" →
      (parse_stroke_style s).strokeLinecap = "butt") ∧
    (∀ s : SolidStrokeAttrib, s.joints = none →
      (parse_stroke_style s).strokeLinejoin = "round") ∧
    (∀ s : SolidStrokeAttrib, s.weight = none → s.solidStyle = none →
      (parse_stroke_style s).strokeWidth = "1") ∧
    (∀ s : SolidStrokeAttrib, s.solidStyle = some "hairline" →
      (parse_stroke_style s).strokeWidth = "0.05") ∧
    (∀ s : SolidStrokeAttrib, s.joints = some "miter" → s.miterLimit = none →
      (parse_stroke_style s).strokeMiterlimit = some "5") := by
  refine ⟨fun s h => ?_, fun s h => ?_, fun s h => ?_, fun s h h' => ?_,
    fun s h => ?_, fun s h h' => ?_⟩ <;>
    simp [parse_stroke_style, h, Option.getD] <;> simp_all

/-- C9 witness: the theorem applied to the empty style descriptor (all
defaults) and to descriptors with explicit `"none"` caps, `"hairline"`
solid style, and a miter join without a limit. -/
theorem C9_stroke_style_witness :
    (parse_stroke_style {}).strokeLinecap = "round" ∧
    (parse_stroke_style { caps := some "none" }).strokeLinecap = "butt" ∧
    (parse_stroke_style {}).strokeLinejoin = "round" ∧
    (parse_stroke_style {}).strokeWidth = "1" ∧
    (parse_stroke_style { solidStyle := some "hairline" }).strokeWidth
      = "0.05" ∧
    (parse_stroke_style { joints := some "miter" }).strokeMiterlimit
      = some "5" :=
  ⟨C9_stroke_style.1 {} rfl,
   C9_stroke_style.2.1 { caps := some "none" } rfl,
   C9_stroke_style.2.2.1 {} rfl,
   C9_stroke_style.2.2.2.1 {} rfl rfl,
   C9_stroke_style.2.2.2.2.1 { solidStyle := some "hairline" } rfl,
   C9_stroke_style.2.2.2.2.2 { joints := some "miter" } rfl rfl⟩

/-- C10: applying `@` to a `ColorEffect` and an operand whose type is not
`ColorEffect` raises `TypeError` instead of returning an effect. -/
theorem C10_matmul_type_error :
    ∀ (e : ColorEffect) (typeName : String),
      e.matmul (.otherType typeName) =
        .error (.typeError
          ("expected type ColorEffect, but operand has type " ++ typeName)) :=
  fun _ _ => rfl

/-- C5 counterexample: decoding `"!0 0|200 0|200 200|0 200!0 0"` does not
yield exactly one Segment. The trailing `"!0 0"` moveto changes the
current point (from `(0,10)` to `(0,0)`), so the builder yields the
four-point open list and then starts a new point list, which the end of
input also yields: the result is two Segments, the first of which is not
closed. -/
theorem C5_counterexample :
    (edge_format_to_point_lists c5EdgeTokens).map List.length = .ok 2 ∧
    (edge_format_to_point_lists c5EdgeTokens).map List.length ≠ .ok 1 := by
  have h : edge_format_to_point_lists c5EdgeTokens =
      .ok [[.plain (0, 0), .plain (10, 0), .plain (10, 10), .plain (0, 10)],
           [.plain (0, 0)]] := by
    norm_num [c5EdgeTokens, edge_format_to_point_lists, buildSegments,
      parse_number, Prod.ext_iff]
  rw [h]
  refine ⟨rfl, fun hc => ?_⟩
  simp [Except.map] at hc

/-- C5 amended: decoding the edge string `"!0 0|200 0|200 200|0 200!0 0"`
yields two Segments: an open Segment with points
`(0,0),(10,0),(10,10),(0,10)` under divide-by-20 scaling, and a degenerate
single-point Segment `(0,0)`. Converting the open Segment emits
`M (0,0) L (10,0) (10,10) (0,10)` with no closepath (it is not closed);
the degenerate second Segment, being trivially closed, emits
`M (0,0) Z`. -/
theorem C5_amended :
    edge_format_to_point_lists c5EdgeTokens =
      .ok [[.plain (0, 0), .plain (10, 0), .plain (10, 10), .plain (0, 10)],
           [.plain (0, 0)]] ∧
    point_list_to_path_format
        [.plain (0, 0), .plain (10, 0), .plain (10, 10), .plain (0, 10)] =
      some [.cmd "M", .pt (.plain (0, 0)),
            .cmd "L", .pt (.plain (10, 0)), .pt (.plain (10, 10)),
            .pt (.plain (0, 10))] ∧
    point_list_to_path_format [.plain (0, 0)] =
      some [.cmd "M", .pt (.plain (0, 0)), .cmd "Z"] := by
  refine ⟨?_, ?_, ?_⟩
  · norm_num [c5EdgeTokens, edge_format_to_point_lists, buildSegments,
      parse_number, Prod.ext_iff]
  · norm_num [point_list_to_path_format, pathFormatLoop, Prod.ext_iff]
    rw [if_neg (by decide)]
    rfl
  · norm_num [point_list_to_path_format, pathFormatLoop]

/-- C8: the Segment Builder treats a moveto to the current point as a
no-op; a moveto that changes the current point yields the Segment built so
far and starts a new one at the new point; lineto appends one plain
vertex; quadto appends a control/destination pair consuming two coordinate
pairs; the in-progress Segment is yielded at end of input; and every
successful parse produces at least one Segment. -/
theorem C8_segment_builder :
    (∀ (a b : NumLiteral) (rest : List EdgeTok) (prev : Point)
        (cur : List Vertex) (acc : List (List Vertex)),
      (parse_number a, parse_number b) = prev →
      buildSegments (.bang :: .num a :: .num b :: rest) prev cur acc =
        buildSegments rest prev cur acc) ∧
    (∀ (a b : NumLiteral) (rest : List EdgeTok) (prev : Point)
        (cur : List Vertex) (acc : List (List Vertex)),
      (parse_number a, parse_number b) ≠ prev →
      buildSegments (.bang :: .num a :: .num b :: rest) prev cur acc =
        buildSegments rest (parse_number a, parse_number b)
          [.plain (parse_number a, parse_number b)] (acc ++ [cur])) ∧
    (∀ (a b : NumLiteral) (rest : List EdgeTok) (prev : Point)
        (cur : List Vertex) (acc : List (List Vertex)),
      buildSegments (.line :: .num a :: .num b :: rest) prev cur acc =
        buildSegments rest (parse_number a, parse_number b)
          (cur ++ [.plain (parse_number a, parse_number b)]) acc) ∧
    (∀ (a b c d : NumLiteral) (rest : List EdgeTok) (prev : Point)
        (cur : List Vertex) (acc : List (List Vertex)),
      buildSegments
          (.quad :: .num a :: .num b :: .num c :: .num d :: rest)
          prev cur acc =
        buildSegments rest (parse_number c, parse_number d)
          (cur ++ [.ctrl (parse_number a, parse_number b),
                   .plain (parse_number c, parse_number d)]) acc) ∧
    (∀ (prev : Point) (cur : List Vertex) (acc : List (List Vertex)),
      buildSegments [] prev cur acc = .ok (acc ++ [cur])) ∧
    (∀ (toks : List EdgeTok) (L : List (List Vertex)),
      edge_format_to_point_lists toks = .ok L → 1 ≤ L.length) := by
  refine ⟨fun a b rest prev cur acc h => ?_,
    fun a b rest prev cur acc h => ?_,
    fun a b rest prev cur acc => rfl,
    fun a b c d rest prev cur acc => rfl,
    fun prev cur acc => rfl,
    fun toks L h => ?_⟩
  · subst h
    show (if (parse_number a, parse_number b) = (parse_number a, parse_number b)
        then buildSegments rest (parse_number a, parse_number b) cur acc
        else buildSegments rest (parse_number a, parse_number b)
          [.plain (parse_number a, parse_number b)] (acc ++ [cur]))
      = buildSegments rest (parse_number a, parse_number b) cur acc
    rw [if_pos rfl]
  · simp only [buildSegments]
    rw [if_neg h]
  · rcases toks with _ | ⟨(_ | _ | _ | a0), rest⟩
    · exact absurd h (by simp [edge_format_to_point_lists])
    · rcases rest with _ | ⟨(_ | _ | _ | a1), rest1⟩
      · exact absurd h (by simp [edge_format_to_point_lists])
      · exact absurd h (by simp [edge_format_to_point_lists])
      · exact absurd h (by simp [edge_format_to_point_lists])
      · exact absurd h (by simp [edge_format_to_point_lists])
      · rcases rest1 with _ | ⟨(_ | _ | _ | a2), rest2⟩
        · exact absurd h (by simp [edge_format_to_point_lists])
        · exact absurd h (by simp [edge_format_to_point_lists])
        · exact absurd h (by simp [edge_format_to_point_lists])
        · exact absurd h (by simp [edge_format_to_point_lists])
        · simp only [edge_format_to_point_lists] at h
          exact buildSegments_ok_length _ _ _ _ _ h
    · exact absurd h (by simp [edge_format_to_point_lists])
    · exact absurd h (by simp [edge_format_to_point_lists])
    · exact absurd h (by simp [edge_format_to_point_lists])

/-- C8 witness: the theorem applied at concrete inputs — a moveto to the
current point `(1,2)` (literals 20 and 40, scaled by 1/20) is a no-op, a
moveto elsewhere yields the current Segment, and a one-moveto stream
parses to exactly one Segment. -/
theorem C8_segment_builder_witness :
    buildSegments [.bang, .num (.dec 20), .num (.dec 40)]
        ((1 : ℚ), (2 : ℚ)) [.plain (1, 2)] [] =
      buildSegments [] (1, 2) [.plain (1, 2)] [] ∧
    buildSegments [.bang, .num (.dec 60), .num (.dec 40)]
        ((1 : ℚ), (2 : ℚ)) [.plain (1, 2)] [] =
      buildSegments []
        (parse_number (.dec 60), parse_number (.dec 40))
        [.plain (parse_number (.dec 60), parse_number (.dec 40))]
        ([] ++ [[.plain (1, 2)]]) ∧
    1 ≤ ([[Vertex.plain ((0 : ℚ), (0 : ℚ))]] : List (List Vertex)).length :=
  ⟨C8_segment_builder.1 (.dec 20) (.dec 40) [] (1, 2) [.plain (1, 2)] []
      (by norm_num [parse_number, Prod.ext_iff]),
   C8_segment_builder.2.1 (.dec 60) (.dec 40) [] (1, 2) [.plain (1, 2)] []
      (by norm_num [parse_number, Prod.ext_iff]),
   C8_segment_builder.2.2.2.2.2
      [.bang, .num (.dec 0), .num (.dec 0)]
      [[Vertex.plain ((0 : ℚ), (0 : ℚ))]]
      (by norm_num [edge_format_to_point_lists, buildSegments, parse_number])⟩

/-- C6 counterexample: mask identifiers are allocated from the renderer's
`mask_num` sequence counter, not from content. Rendering the same logical
input twice with the same renderer (whose counter starts at 1 and is not
reset between renders) produces the mask id `"Mask_1"` the first time and
`"Mask_2"` the second time. -/
theorem C6_counterexample :
    (allocMaskId ⟨1⟩).1 = "Mask_1" ∧
    (allocMaskId (allocMaskId ⟨1⟩).2).1 = "Mask_2" ∧
    (allocMaskId (allocMaskId ⟨1⟩).2).1 ≠ (allocMaskId ⟨1⟩).1 := by
  refine ⟨rfl, rfl, ?_⟩
  decide

/-- C6 amended: filter identifiers are derived from a pure function of the
effect's content (two effects with equal (multiplier, offset) tuples get
the same id), and the identity effect is never rendered as a filter
fragment (`_handle_domshape` checks `is_identity()` and omits the filter
reference); a non-identity effect outside a mask does get its
content-derived filter reference. Mask identifiers, by contrast, come
from the renderer's sequence counter: `"Mask_" + str(mask_num)`, with the
counter incremented per allocation. -/
theorem C6_amended :
    (∀ (pyHash : Option (RGBA × RGBA) → ℕ) (e1 e2 : ColorEffect),
      e1.effect = e2.effect →
      e1.renderId pyHash = e2.renderId pyHash) ∧
    (∀ (pyHash : Option (RGBA × RGBA) → ℕ) (im : Bool) (ce : ColorEffect),
      ce.isIdentity = true → fillUseFilter pyHash im ce = none) ∧
    (∀ (pyHash : Option (RGBA × RGBA) → ℕ) (ce : ColorEffect),
      ce.isIdentity = false →
      fillUseFilter pyHash false ce = some (ce.renderId pyHash)) ∧
    (∀ st : RendererState,
      (allocMaskId st).1 = "Mask_" ++ toString st.maskNum ∧
      (allocMaskId st).2.maskNum = st.maskNum + 1) := by
  refine ⟨fun pyHash e1 e2 h => ?_, fun pyHash im ce h => ?_,
    fun pyHash ce h => ?_, fun st => ⟨rfl, rfl⟩⟩
  · simp [ColorEffect.renderId, h]
  · simp [fillUseFilter, h]
  · simp [fillUseFilter, h]

/-- C6 amended witness: the theorem applied at concrete inputs — the zero
hash function, two structurally equal effects, the `None` identity
effect, and a non-identity alpha-halving effect (as exact rationals,
`1/2 = 0.5` exactly in binary floating point). -/
theorem C6_amended_witness :
    ColorEffect.renderId (fun _ => 0) ⟨some (⟨1, 1, 1, 2⟩, ⟨0, 0, 0, 0⟩)⟩ =
      ColorEffect.renderId (fun _ => 0) ⟨some (⟨1, 1, 1, 2⟩, ⟨0, 0, 0, 0⟩)⟩ ∧
    fillUseFilter (fun _ => 0) true ⟨none⟩ = none ∧
    fillUseFilter (fun _ => 0) false ⟨some (⟨1, 1, 1, 2⟩, ⟨0, 0, 0, 0⟩)⟩ =
      some (ColorEffect.renderId (fun _ => 0)
        ⟨some (⟨1, 1, 1, 2⟩, ⟨0, 0, 0, 0⟩)⟩) ∧
    (allocMaskId ⟨5⟩).1 = "Mask_" ++ toString 5 :=
  ⟨C6_amended.1 (fun _ => 0) _ _ rfl,
   C6_amended.2.1 (fun _ => 0) true ⟨none⟩ rfl,
   C6_amended.2.2.1 (fun _ => 0) _ (by decide),
   (C6_amended.2.2.2 ⟨5⟩).1⟩

/-- C7 counterexample: the renderer wraps a `DOMShape` (or
`DOMSymbolInstance`) body in a transform container even when the element
has no matrix at all: `get_matrix` never returns `None` (it falls back to
`IDENTITY_MATRIX`), so the `matrix is not None` guard in `_render_element`
always passes and the body is wrapped in an identity-matrix `<g>` —
contradicting "wraps if and only if the matrix is non-identity". -/
theorem C7_counterexample :
    get_matrix none = some IDENTITY_MATRIX ∧
    renderElementBody (.domShape "Shape" none) =
      [.transformG IDENTITY_MATRIX [.node "Shape"]] ∧
    renderElementBody (.domShape "Shape" none) ≠ [.node "Shape"] := by
  refine ⟨rfl, rfl, ?_⟩
  simp [renderElementBody, wrapTransform, get_matrix]

/-- C7 amended: when resolving a `DOMShape` or `DOMSymbolInstance`, the
renderer always wraps the rendered body in a transform container — with
the identity matrix when the element carries no matrix, since
`get_matrix` never returns `None` — and a `DOMGroup` never applies its own
matrix: its children are flattened in order with no transform wrapper. -/
theorem C7_amended :
    (∀ (c : String) (mc : Option XflMatrixAttrib), ∃ m,
      get_matrix mc = some m ∧
      renderElementBody (.domShape c mc) = [.transformG m [.node c]]) ∧
    (∀ (c : String) (mc : Option XflMatrixAttrib), ∃ m,
      get_matrix mc = some m ∧
      renderElementBody (.domSymbolInstance c mc) =
        [.transformG m [.node c]]) ∧
    (∀ (children : List RElem) (mc : Option XflMatrixAttrib),
      renderElementBody (.domGroup children mc) =
        renderElementList children) ∧
    (∀ mc : Option XflMatrixAttrib, get_matrix mc ≠ none) := by
  refine ⟨fun c mc => ?_, fun c mc => ?_, fun children mc => rfl,
    fun mc => ?_⟩
  · cases mc <;>
      exact ⟨_, rfl, rfl⟩
  · cases mc <;>
      exact ⟨_, rfl, rfl⟩
  · cases mc <;> simp [get_matrix]

/-- C1 counterexample: the spec claims that for balanced input the output
rings' total vertex count equals the input open segments' total vertex
count. The balanced one-fill input `A→B`, `B→A` assembles into the single
closed ring `A,B,A`: the output has 3 vertices while the input open
segments have 4, refuting the claimed equality (one shared point is
elided at each join, here once for the join and none for the closure). -/
theorem C1_counterexample :
    (∀ fid v,
      (openSegsFor c1Pls fid).countP (fun s => segHeadD s = v) =
        (openSegsFor c1Pls fid).countP (fun s => segLastD s = v)) ∧
    point_lists_to_shapes c1Pls = .ok [(0, [[pA, pB, pA]])] ∧
    ([[pA, pB, pA]].map List.length).sum = 3 ∧
    ((openSegsFor c1Pls 0).map List.length).sum = 4 :=
  ⟨c1_balance, c1_eval, rfl, rfl⟩

/-- C1 (amended): for every input of nonempty point lists (which is what
the Segment Builder produces; Python raises `IndexError` on an empty
point list, a path this model does not represent) whose open point lists
have balanced in/out degree per point within each fill identity,
`point_lists_to_shapes` succeeds; per fill identity the output is the
already-closed input point lists followed by the assembled rings; every
output point list has equal first and last point and is nonempty; each
assembled ring is the concatenation of a chain of joined input segments
with the repeated start-point move of interior segments elided
(`joinElide` of a closed chain), the chains of one fill using that
fill's open input point lists exactly once altogether; and the rings'
total reduced vertex count (`sum of (length - 1)`) equals that of the
input open point lists (the raw vertex counts differ by one elided
shared point per join). No claim is made about failure behavior: the
reference implementation's defaultdict reads inside `walk` insert
missing keys, so on unbalanced input it can raise `RuntimeError`
(dictionary changed size during iteration) instead of the assertion,
and this model drops that side effect. -/
theorem C1_shape_assembler
    (pls : List (Seg × FillId))
    (hne : ∀ p ∈ pls, p.1 ≠ [])
    (hbal : ∀ fid v,
      (openSegsFor pls fid).countP (fun s => segHeadD s = v) =
        (openSegsFor pls fid).countP (fun s => segLastD s = v)) :
    ∃ out, point_lists_to_shapes pls = Except.ok out ∧
      ∀ fid,
        (∀ r ∈ shapesFind out fid, segHeadD r = segLastD r ∧ r ≠ []) ∧
        ∃ rings, shapesFind out fid = closedSegsFor pls fid ++ rings ∧
          (∃ chs : List (List Seg), rings = chs.map joinElide ∧
            (∀ ch ∈ chs, ch ≠ [] ∧ (∃ o, IsChain o ch o) ∧
              ∀ t ∈ ch, 2 ≤ t.length) ∧
            (chs.flatten : Multiset Seg) =
              (openSegsFor pls fid : Multiset Seg)) ∧
          (rings.map segSpan).sum =
            ((openSegsFor pls fid).map segSpan).sum :=
  point_lists_to_shapes_spec pls hne hbal

/-- C1 witness: the amended theorem applied to the concrete balanced
input `A→B`, `B→A`. -/
theorem C1_shape_assembler_witness :
    ∃ out, point_lists_to_shapes c1Pls = Except.ok out ∧
      ∀ fid,
        (∀ r ∈ shapesFind out fid, segHeadD r = segLastD r ∧ r ≠ []) ∧
        ∃ rings, shapesFind out fid = closedSegsFor c1Pls fid ++ rings ∧
          (∃ chs : List (List Seg), rings = chs.map joinElide ∧
            (∀ ch ∈ chs, ch ≠ [] ∧ (∃ o, IsChain o ch o) ∧
              ∀ t ∈ ch, 2 ≤ t.length) ∧
            (chs.flatten : Multiset Seg) =
              (openSegsFor c1Pls fid : Multiset Seg)) ∧
          (rings.map segSpan).sum =
            ((openSegsFor c1Pls fid).map segSpan).sum :=
  C1_shape_assembler c1Pls (by decide) c1_balance

end Xfl2Svg
